import Mathlib

/-!
# Verification of the `adequate-little-templates` engine

A shallow embedding of `src/index.ts`: the Value data model, the expression
evaluator (`ev`) with its built-in function registry (`fns`), the renderer
(`rn`), and the hand-rolled recursive-descent parser (`compile`'s inner
`parseExpr` / `parseNodes`), followed by theorems about the spec's claims.

Modelling conventions:
* JavaScript numbers are modelled as exact rationals plus a NaN marker
  (`JSNum`).  IEEE-754 rounding/overflow and the shortest-round-trip float
  printing of non-decimal rationals are not modelled; no theorem below
  evaluates a number outside the exactly-representable decimal fragment.
* JavaScript strings are modelled as Lean `String`s (sequences of code
  points); UTF-16 surrogate-pair length is not modelled.
* `null` and `undefined` are distinct `Value` constructors, as in the
  TypeScript `Value` union; `v == null` in the source is true for both.
* Mappings (`{ [k: string]: Value }`) are insertion-ordered association
  lists with unique keys; `{...ctx, [k]: v}` is `setKey`.
* `===` on two composite values (arrays/objects) is reference equality in
  JavaScript, which a pure model cannot observe; `jsStrictEq` returns
  `false` for composite operands.  No claim evaluates `eq`/`ne` beyond
  their arity check.
-/

namespace ALT

/-- A JavaScript number: NaN or an exact rational.  (Infinity cannot be
produced by the engine's number literals or by the operations the claims
exercise, so it is not modelled.) -/
inductive JSNum where
| nan : JSNum
| q (x : Rat) : JSNum
deriving DecidableEq

/-- The `Value` union from `src/index.ts`:
string | number | boolean | null | undefined | Value[] | { [k]: Value }. -/
inductive Value where
| str (s : String) : Value
| num (n : JSNum) : Value
| bool (b : Bool) : Value
| null : Value
| undef : Value
| arr (elems : List Value) : Value
| obj (entries : List (String × Value)) : Value

/-- `TemplateData`: the mapping form of a `Value`, used as evaluation
context. -/
abbrev Ctx := List (String × Value)

/-- First-match association-list lookup (JS objects have unique keys, so
first match = the key's binding). -/
def lookupCtx : Ctx → String → Option Value
| [], _ => none
| (k1, v1) :: rest, k => if k1 = k then some v1 else lookupCtx rest k

/-- Own-key test on a mapping. -/
def hasKey (m : Ctx) (k : String) : Bool :=
  (lookupCtx m k).isSome

/-- `{...m, [k]: v}` (spread-then-set): an existing key keeps its position
and is overwritten; a new key is appended. -/
def setKey (m : Ctx) (k : String) (v : Value) : Ctx :=
  if hasKey m k then m.map (fun p => if p.1 = k then (k, v) else p)
  else m ++ [(k, v)]

/-- `truthy` from the source: false for null, undefined, false, 0, "",
NaN, `[]` and `{}` (zero keys); true for everything else. -/
def truthy : Value → Bool
| Value.null => false
| Value.undef => false
| Value.bool b => b
| Value.num JSNum.nan => false
| Value.num (JSNum.q x) => decide (x ≠ 0)
| Value.str s => decide (s ≠ "")
| Value.arr l => !l.isEmpty
| Value.obj m => !m.isEmpty

/-- Value of a digit string, most significant first. -/
def digitsVal (l : List Char) : Nat :=
  l.foldl (fun a c => a * 10 + (c.toNat - 48)) 0

/-- `some i` iff `s` is the canonical decimal representation of `i` —
exactly the strings that name an own index property of a JS string or
array (`"0"`, `"12"`, …; `"01"` and `""` are not canonical). -/
def natDecimal (s : String) : Option Nat :=
  if s.data ≠ [] ∧ s.data.all Char.isDigit ∧ (s.data.head? ≠ some '0' ∨ s.data.length = 1)
  then some (digitsVal s.data) else none

/-- Smallest exponent `k ≤ 20` with `d ∣ 10^k`, if any: the denominators
that admit a finite decimal expansion. -/
def decExp (d : Nat) : Option Nat :=
  (List.range 21).find? (fun k => decide (d ∣ 10 ^ k))

/-- Decimal digits of `n`, zero-padded on the left to width `w`. -/
def padDigits (n : Nat) (w : Nat) : String :=
  let s := toString n
  String.mk (List.replicate (w - s.length) '0') ++ s

/-- `String(n)` for a JS number.  Integers print in decimal; rationals
with a finite decimal expansion print it (matching how JS prints back the
number literals this engine can parse); other rationals — which no claim
evaluates — fall back to `num/den`. -/
def numToString : JSNum → String
| JSNum.nan => "NaN"
| JSNum.q x =>
  if x.den = 1 then toString x.num
  else
    match decExp x.den with
    | some k =>
      let scaled : Int := x.num * ((10 ^ k : Nat) / x.den)
      let intPart := scaled.natAbs / 10 ^ k
      let fracPart := scaled.natAbs % 10 ^ k
      (if x.num < 0 then "-" else "") ++ toString intPart ++ "." ++ padDigits fracPart k
    | none => toString x.num ++ "/" ++ toString x.den

mutual

/-- `String(v)`: JS string coercion as used by the renderer and the
string built-ins.  Arrays join their elements with `","` (null/undefined
elements become `""`); plain objects print `"[object Object]"`. -/
def jsToString : Value → String
| Value.str s => s
| Value.num n => numToString n
| Value.bool b => cond b "true" "false"
| Value.null => "null"
| Value.undef => "undefined"
| Value.arr l => jsArrJoin l ","
| Value.obj _ => "[object Object]"

/-- `Array.prototype.join`: elements coerced with `String`, except null
and undefined which become the empty string. -/
def jsArrJoin : List Value → String → String
| [], _ => ""
| [v], _ => jsElemStr v
| v :: vs, sep => jsElemStr v ++ sep ++ jsArrJoin vs sep

/-- How `join`/`toString` renders a single array element. -/
def jsElemStr : Value → String
| Value.null => ""
| Value.undef => ""
| v => jsToString v

end

/-- `Number(s)` for a string: trimmed, empty → 0, else a decimal numeral
(optional sign, digits, at most one dot).  JS additionally accepts hex /
exponent / `Infinity` spellings, which no template in the claims can
produce; those strings map to NaN here. -/
def strToNumber (s : String) : JSNum :=
  let t := s.trim.data
  if t = [] then JSNum.q 0
  else
    let (sgn, t1) : Rat × List Char :=
      match t with
      | '-' :: r => (-1, r)
      | '+' :: r => (1, r)
      | _ => (1, t)
    let ip := t1.takeWhile Char.isDigit
    let r1 := t1.dropWhile Char.isDigit
    let (fp, r2) : List Char × List Char :=
      match r1 with
      | '.' :: r => (r.takeWhile Char.isDigit, r.dropWhile Char.isDigit)
      | _ => ([], r1)
    if r2 = [] ∧ (ip ≠ [] ∨ fp ≠ []) then
      JSNum.q (sgn * ((digitsVal ip : Rat) + (digitsVal fp : Rat) / ((10 : Rat) ^ fp.length)))
    else JSNum.nan

/-- `Number(v)`: JS number coercion. -/
def jsToNumber : Value → JSNum
| Value.num n => n
| Value.bool b => JSNum.q (cond b 1 0)
| Value.null => JSNum.q 0
| Value.undef => JSNum.nan
| Value.str s => strToNumber s
| v@(Value.arr _) => strToNumber (jsToString v)
| Value.obj _ => JSNum.nan

/-- `===` on primitive values; NaN is not equal to itself.  Composite
operands compare by reference in JS, which is not observable here; they
yield `false` (see header note). -/
def jsStrictEq : Value → Value → Bool
| Value.str a, Value.str b => a = b
| Value.num (JSNum.q a), Value.num (JSNum.q b) => a = b
| Value.bool a, Value.bool b => a = b
| Value.null, Value.null => true
| Value.undef, Value.undef => true
| _, _ => false

/-- `a < b` on JS numbers: false whenever either side is NaN. -/
def jsNumLt : JSNum → JSNum → Bool
| JSNum.q a, JSNum.q b => decide (a < b)
| _, _ => false

/-- `a ≤ b` on JS numbers: false whenever either side is NaN. -/
def jsNumLe : JSNum → JSNum → Bool
| JSNum.q a, JSNum.q b => decide (a ≤ b)
| _, _ => false

/-- `hasOwnProperty` on a `Value`: own keys of a mapping are its entries;
boxed strings and arrays own `length` and their canonical index keys;
numbers and booleans own nothing.  (null/undefined never reach this test
in `ev`.) -/
def hasOwn : Value → String → Bool
| Value.obj m, k => hasKey m k
| Value.arr l, k =>
  k = "length" || (match natDecimal k with | some i => decide (i < l.length) | none => false)
| Value.str s, k =>
  k = "length" || (match natDecimal k with | some i => decide (i < s.length) | none => false)
| _, _ => false

/-- Property read `v[k]` for the cases where `hasOwn v k` holds (total,
returning undefined elsewhere). -/
def getProp : Value → String → Value
| Value.obj m, k => (lookupCtx m k).getD Value.undef
| Value.arr l, k =>
  if k = "length" then Value.num (JSNum.q l.length)
  else match natDecimal k with
  | some i => (l.get? i).getD Value.undef
  | none => Value.undef
| Value.str s, k =>
  if k = "length" then Value.num (JSNum.q s.length)
  else match natDecimal k with
  | some i =>
    match s.data.get? i with
    | some c => Value.str (String.mk [c])
    | none => Value.undef
  | none => Value.undef
| _, _ => Value.undef

/-- The Variable path walk from `ev`:
`for k of path { if (v == null || !has(v, k)) return undefined; v = v[k] }`. -/
def resolvePath : List String → Value → Value
| [], v => v
| k :: ks, v =>
  match v with
  | Value.null => Value.undef
  | Value.undef => Value.undef
  | v => if hasOwn v k then resolvePath ks (getProp v k) else Value.undef

/-- Truncation toward zero, as in `ToIntegerOrInfinity`. -/
def ratTrunc (x : Rat) : Int :=
  if 0 ≤ x then x.floor else x.ceil

/-- The effective end index of `slice(0, n)` on something of length
`len`: NaN → 0, negative counts from the end, clamped to `[0, len]`. -/
def jsSliceEnd (len : Nat) (n : JSNum) : Nat :=
  match n with
  | JSNum.nan => 0
  | JSNum.q x =>
    let i := ratTrunc x
    if i < 0 then (max ((len : Int) + i) 0).toNat
    else min i.toNat len

/-- `slice(0, v)` end index when the bound is a raw `Value` (as in
`limit`): `undefined` means "to the end", anything else is coerced. -/
def jsSliceEndV (len : Nat) (v : Value) : Nat :=
  match v with
  | Value.undef => len
  | v => jsSliceEnd len (jsToNumber v)

/-- `s.split(pat).join(rep)`: replace every occurrence of `pat` by `rep`;
`split("")` splits into single characters. -/
def jsSplitJoin (s pat rep : String) : String :=
  if pat = "" then String.intercalate rep (s.data.map (fun c => String.mk [c]))
  else String.intercalate rep (s.splitOn pat)

/-- Expression AST from the source: Literal, Variable path, Call, Pipe. -/
inductive Expr where
| L (val : Value) : Expr
| V (path : List String) : Expr
| C (fn : String) (args : List Expr) : Expr
| P (left : Expr) (fn : String) (args : List Expr) : Expr

mutual

/-- Node count of an expression (termination measure for evaluation). -/
def exprSize : Expr → Nat
| Expr.L _ => 1
| Expr.V _ => 1
| Expr.C _ a => 1 + exprsSize a
| Expr.P l _ a => 2 + exprSize l + exprsSize a

def exprsSize : List Expr → Nat
| [] => 0
| e :: es => 1 + exprSize e + exprsSize es

end

/-- `ck`: the argument-count checker.  Returns the arity-error string if
fewer than `n` argument expressions were supplied, else nothing. -/
def ck (a : List Expr) (n : Nat) (name : String) : Option String :=
  if a.length < n then
    some ("[Error: " ++ name ++ "() needs " ++ toString n ++ " args]")
  else none

/-- `toLowerCase()`, modelled as the character-wise (ASCII) case map. -/
def jsToLower (s : String) : String := String.mk (s.data.map Char.toLower)

/-- `toUpperCase()`, modelled as the character-wise (ASCII) case map. -/
def jsToUpper (s : String) : String := String.mk (s.data.map Char.toUpper)

/-- The whitespace class removed by `trim()`. -/
def jsTrimWs (c : Char) : Bool :=
  c = ' ' || c = '\t' || c = '\n' || c = '\r' || c = '\x0b' || c = '\x0c' || c = '\u00A0'

/-- `trim()`: strip the whitespace class from both ends. -/
def jsTrim (s : String) : String :=
  String.mk (((s.data.dropWhile jsTrimWs).reverse.dropWhile jsTrimWs).reverse)

/-- `ck` on the evaluated operand list (the count of evaluated operands
equals the count of argument expressions). -/
def ckV (vs : List Value) (n : Nat) (name : String) : Option String :=
  if vs.length < n then
    some ("[Error: " ++ name ++ "() needs " ++ toString n ++ " args]")
  else none

/-- The registry `fns` of strict built-ins (every entry except the lazy
`and`/`or`), as a pure function of the name and the evaluated operands.
Where the source writes `ck(...) ?? body`, the element accesses
`a[0]`/`a[1]`/`a[2]` are expressed by a match whose short arms are
unreachable because `ck` returned no error.  An unregistered name yields
the unknown-function error Value. -/
def applyFn (name : String) (vs : List Value) : Value :=
  if name = "eq" then
    match ckV vs 2 "eq" with
    | some err => Value.str err
    | none =>
      match vs with
      | v0 :: v1 :: _ => Value.bool (jsStrictEq v0 v1)
      | _ => Value.undef
  else if name = "ne" then
    match ckV vs 2 "ne" with
    | some err => Value.str err
    | none =>
      match vs with
      | v0 :: v1 :: _ => Value.bool (!jsStrictEq v0 v1)
      | _ => Value.undef
  else if name = "gt" then
    match ckV vs 2 "gt" with
    | some err => Value.str err
    | none =>
      match vs with
      | v0 :: v1 :: _ => Value.bool (jsNumLt (jsToNumber v1) (jsToNumber v0))
      | _ => Value.undef
  else if name = "lt" then
    match ckV vs 2 "lt" with
    | some err => Value.str err
    | none =>
      match vs with
      | v0 :: v1 :: _ => Value.bool (jsNumLt (jsToNumber v0) (jsToNumber v1))
      | _ => Value.undef
  else if name = "gte" then
    match ckV vs 2 "gte" with
    | some err => Value.str err
    | none =>
      match vs with
      | v0 :: v1 :: _ => Value.bool (jsNumLe (jsToNumber v1) (jsToNumber v0))
      | _ => Value.undef
  else if name = "lte" then
    match ckV vs 2 "lte" with
    | some err => Value.str err
    | none =>
      match vs with
      | v0 :: v1 :: _ => Value.bool (jsNumLe (jsToNumber v0) (jsToNumber v1))
      | _ => Value.undef
  else if name = "not" then
    match ckV vs 1 "not" with
    | some err => Value.str err
    | none =>
      match vs with
      | v0 :: _ => Value.bool (!truthy v0)
      | _ => Value.undef
  else if name = "lowercase" then
    -- no `ck` call in the source: `String(ev(a[0], ctx)).toLowerCase()`;
    -- an absent `a[0]` evaluates to `undefined`, which stringifies
    (match vs with
     | [] => Value.str (jsToLower (jsToString Value.undef))
     | v0 :: _ => Value.str (jsToLower (jsToString v0)))
  else if name = "uppercase" then
    (match vs with
     | [] => Value.str (jsToUpper (jsToString Value.undef))
     | v0 :: _ => Value.str (jsToUpper (jsToString v0)))
  else if name = "trim" then
    (match vs with
     | [] => Value.str (jsTrim (jsToString Value.undef))
     | v0 :: _ => Value.str (jsTrim (jsToString v0)))
  else if name = "truncate" then
    match ckV vs 2 "truncate" with
    | some err => Value.str err
    | none =>
      match vs with
      | v0 :: v1 :: rest =>
        let s := jsToString v0
        let n := jsToNumber v1
        let suffix := match rest with
          | v2 :: _ => jsToString v2
          | [] => "..."
        if jsNumLt n (JSNum.q s.length)
        then Value.str (String.mk (s.data.take (jsSliceEnd s.length n)) ++ suffix)
        else Value.str s
      | _ => Value.undef
  else if name = "replace" then
    match ckV vs 3 "replace" with
    | some err => Value.str err
    | none =>
      match vs with
      | v0 :: v1 :: v2 :: _ =>
        Value.str (jsSplitJoin (jsToString v0) (jsToString v1) (jsToString v2))
      | _ => Value.undef
  else if name = "limit" then
    match ckV vs 2 "limit" with
    | some err => Value.str err
    | none =>
      match vs with
      | v0 :: v1 :: _ =>
        (match v0 with
         | Value.arr l =>
           let bound := if jsNumLt (jsToNumber v1) (JSNum.q 0) then Value.num (JSNum.q 0) else v1
           Value.arr (l.take (jsSliceEndV l.length bound))
         | r => r)
      | _ => Value.undef
  else if name = "first" then
    match ckV vs 1 "first" with
    | some err => Value.str err
    | none =>
      match vs with
      | v0 :: _ =>
        (match v0 with
         | Value.arr l => (l.get? 0).getD Value.undef
         | r => r)
      | _ => Value.undef
  else if name = "last" then
    match ckV vs 1 "last" with
    | some err => Value.str err
    | none =>
      match vs with
      | v0 :: _ =>
        (match v0 with
         | Value.arr l => (l.get? (l.length - 1)).getD Value.undef
         | r => r)
      | _ => Value.undef
  else if name = "length" then
    match ckV vs 1 "length" with
    | some err => Value.str err
    | none =>
      match vs with
      | v0 :: _ =>
        (match v0 with
         | Value.arr l => Value.num (JSNum.q l.length)
         | v => Value.num (JSNum.q (jsToString v).length))
      | _ => Value.undef
  else if name = "join" then
    match ckV vs 2 "join" with
    | some err => Value.str err
    | none =>
      match vs with
      | v0 :: v1 :: _ =>
        (match v0 with
         | Value.arr l => Value.str (jsArrJoin l (jsToString v1))
         | r => Value.str (jsToString r))
      | _ => Value.undef
  else if name = "default" then
    match ckV vs 2 "default" with
    | some err => Value.str err
    | none =>
      match vs with
      | v0 :: v1 :: _ => if truthy v0 then v0 else v1
      | _ => Value.undef
  else
    Value.str ("[Error: unknown " ++ name ++ "()]")

mutual

/-- The evaluator `ev`.  Literals return their value; Variables walk the
path from the context with the own-key test; Calls and Pipes dispatch on
the registry (`evalFn`), the Pipe prepending its left-hand expression. -/
def ev : Expr → Ctx → Value
| Expr.L v, _ => v
| Expr.V path, ctx => resolvePath path (Value.obj ctx)
| Expr.C fn args, ctx => evalFn fn args ctx
| Expr.P left fn args, ctx => evalFn fn (left :: args) ctx
termination_by e ctx => (exprSize e, 0)
decreasing_by
all_goals simp_wf
all_goals first
| (apply Prod.Lex.right; try omega)
| (apply Prod.Lex.left; simp [exprSize, exprsSize]; try omega)

/-- Values of the argument expressions, in order. -/
def evList : List Expr → Ctx → List Value
| [], _ => []
| e :: es, ctx => ev e ctx :: evList es ctx
termination_by a ctx => (exprsSize a, 0)
decreasing_by
all_goals simp_wf
all_goals (apply Prod.Lex.left; simp [exprSize, exprsSize]; try omega)

/-- Dispatch on the registry: the lazy entries `and` and `or` receive the
raw argument expressions for short-circuit evaluation; every other name
goes to `applyFn` with the evaluated operands (the registry functions are
strict there, and evaluation is pure, so passing the values is
observationally the same as the source passing the expressions); unknown
names yield the unknown-function error Value. -/
def evalFn (name : String) (a : List Expr) (ctx : Ctx) : Value :=
  if name = "and" then evAnd a (Value.bool true) ctx
  else if name = "or" then evOr a (Value.bool false) ctx
  else applyFn name (evList a ctx)
termination_by (exprsSize a, 1)
decreasing_by
all_goals simp_wf
all_goals first
| (apply Prod.Lex.right; try omega)
| (apply Prod.Lex.left; simp [exprSize, exprsSize]; try omega)

/-- `and`: evaluate left to right starting from `r = true`; return the
first falsy result, else the last result. -/
def evAnd : List Expr → Value → Ctx → Value
| [], r, _ => r
| e :: es, _, ctx =>
  let r := ev e ctx
  if truthy r then evAnd es r ctx else r
termination_by a r ctx => (exprsSize a, 0)
decreasing_by
all_goals simp_wf
all_goals (apply Prod.Lex.left; simp [exprSize, exprsSize]; try omega)

/-- `or`: evaluate left to right starting from `r = false`; return the
first truthy result, else the last result. -/
def evOr : List Expr → Value → Ctx → Value
| [], r, _ => r
| e :: es, _, ctx =>
  let r := ev e ctx
  if truthy r then r else evOr es r ctx
termination_by a r ctx => (exprsSize a, 0)
decreasing_by
all_goals simp_wf
all_goals (apply Prod.Lex.left; simp [exprSize, exprsSize]; try omega)

end

/-- Single-character HTML escape.  The source performs five sequential
global replaces (`&`, `<`, `>`, `"`, `'` in that order); since none of
the replacement entities contains a character replaced by a *later* pass
(and `&` is replaced only by the first pass), the sequential passes equal
this single left-to-right character map. -/
def escChar1 (c : Char) : String :=
  if c = '&' then "&amp;"
  else if c = '<' then "&lt;"
  else if c = '>' then "&gt;"
  else if c = '\x22' then "&quot;"
  else if c = '\x27' then "&#39;"
  else String.mk [c]

/-- `esc`: HTML-escape `&`, `<`, `>`, `"`, `'`. -/
def esc (s : String) : String :=
  String.join (s.data.map escChar1)

/-- Node AST from the source: Text, Interpolation (with raw flag), Flow
(conditional branches plus optional else), Each (loop). -/
inductive Node where
| T (val : String) : Node
| I (expr : Expr) (raw : Bool) : Node
| F (branches : List (Expr × List Node)) (els : Option (List Node)) : Node
| E (arr : Expr) (asName : String) (idx : Option String) (body : List Node)
    (els : Option (List Node)) : Node

mutual

/-- Node count of a node (termination measure for rendering). -/
def nodeSize : Node → Nat
| Node.T _ => 1
| Node.I _ _ => 1
| Node.F bs els => 1 + branchesSize bs + optNodesSize els
| Node.E _ _ _ body els => 1 + nodesSize body + optNodesSize els

def nodesSize : List Node → Nat
| [] => 0
| n :: ns => 1 + nodeSize n + nodesSize ns

def branchesSize : List (Expr × List Node) → Nat
| [] => 0
| (_, b) :: bs => 1 + nodesSize b + branchesSize bs

def optNodesSize : Option (List Node) → Nat
| none => 0
| some ns => 1 + nodesSize ns

end

/-- The per-iteration child context of a loop:
`const local = {...ctx, [n.as]: arr[i]}; if (n.idx) local[n.idx] = i`.
Note `if (n.idx)` tests JS string truthiness, so an *empty* index name
binds nothing, exactly like an absent one. -/
def loopCtx (ctx : Ctx) (asN : String) (idxN : Option String) (v : Value) (i : Nat) : Ctx :=
  let c1 := setKey ctx asN v
  match idxN with
  | some ix => if ix = "" then c1 else setKey c1 ix (Value.num (JSNum.q i))
  | none => c1

mutual

/-- The renderer `rn`: concatenates the rendering of each node against
the same context. -/
def rn : List Node → Ctx → String
| [], _ => ""
| n :: rest, ctx => rnNode n ctx ++ rn rest ctx
termination_by l ctx => (nodesSize l, 0)
decreasing_by
all_goals simp_wf
all_goals (apply Prod.Lex.left; simp [nodeSize, nodesSize]; try omega)

/-- Rendering of one node: Text verbatim; Interpolation evaluates and
HTML-escapes unless raw, with the two type-mismatch error strings and the
empty rendering of null/undefined; Flow tries branches in order; Each
needs an array value, rendering the fallback only for an empty one. -/
def rnNode : Node → Ctx → String
| Node.T s, _ => s
| Node.I e raw, ctx =>
  (match ev e ctx with
   | Value.arr _ => "[Error: use #each for arrays]"
   | Value.obj _ => "[Error: cannot render object]"
   | Value.null => ""
   | Value.undef => ""
   | v => if raw then jsToString v else esc (jsToString v))
| Node.F bs els, ctx => rnF bs els ctx
| Node.E arrE asN idxN body els, ctx =>
  match ev arrE ctx with
  | Value.arr elems =>
    if elems.isEmpty then rnElse els ctx
    else rnEach body asN idxN ctx elems 0
  | _ => "[Error: #each needs array]"
termination_by n ctx => (nodeSize n, 0)
decreasing_by
all_goals simp_wf
all_goals (apply Prod.Lex.left; simp [nodeSize, nodesSize, branchesSize, optNodesSize]; try omega)

/-- The source's `n.else ? rn(n.else, ctx) : ""` — render the fallback
body when present, else nothing. -/
def rnElse : Option (List Node) → Ctx → String
| some fb, ctx => rn fb ctx
| none, _ => ""
termination_by els ctx => (optNodesSize els, 0)
decreasing_by
all_goals simp_wf
all_goals (apply Prod.Lex.left; simp [nodeSize, nodesSize, branchesSize, optNodesSize]; try omega)

/-- Conditional rendering: the body of the first truthy branch, else the
fallback, else nothing. -/
def rnF : List (Expr × List Node) → Option (List Node) → Ctx → String
| [], els, ctx =>
  (match els with
   | some fb => rn fb ctx
   | none => "")
| (c, b) :: rest, els, ctx =>
  if truthy (ev c ctx) then rn b ctx else rnF rest els ctx
termination_by bs els ctx => (branchesSize bs + optNodesSize els, 0)
decreasing_by
all_goals simp_wf
all_goals (apply Prod.Lex.left; simp [nodeSize, nodesSize, branchesSize, optNodesSize]; try omega)

/-- Loop body rendering: element by element, each against its own child
context built by `loopCtx` from the unchanged enclosing context. -/
def rnEach : List Node → String → Option String → Ctx → List Value → Nat → String
| _, _, _, _, [], _ => ""
| body, asN, idxN, ctx, v :: vs, i =>
  rn body (loopCtx ctx asN idxN v i) ++ rnEach body asN idxN ctx vs (i + 1)
termination_by body asN idxN ctx vs i => (nodesSize body, vs.length + 1)
decreasing_by
all_goals simp_wf
all_goals first
| (apply Prod.Lex.right; omega)
| (apply Prod.Lex.right; simp)

end

/-! ## The parser

`compile` holds a single mutable cursor `pos` over the fixed input; here
the state is the remaining suffix of the input as a `List Char`, and each
scanner returns its result together with the new suffix.  The recursive
parsers (`parseExprF`…, `parseNodesF`…) carry a fuel argument that every
(mutually) recursive call decrements; the fuel-sufficiency theorems below
show a fuel linear in the remaining input always suffices, which is the
formal content of the parser's termination. -/

/-- The `" \t\n\r"` membership test of `skipWs`. -/
def isWsChar (c : Char) : Bool :=
  c = ' ' || c = '\t' || c = '\n' || c = '\r'

/-- `skipWs`: advance past whitespace. -/
def skipWs : List Char → List Char
| [] => []
| c :: cs => if isWsChar c then skipWs cs else c :: cs

/-- JS `\w`: ASCII letters, digits, underscore. -/
def isWordChar (c : Char) : Bool :=
  c.isAlphanum || c = '_'

/-- `ident`'s scanning loop, with the accumulated word. -/
def identAux : String → List Char → String × List Char
| acc, [] => (acc, [])
| acc, c :: cs => if isWordChar c then identAux (acc.push c) cs else (acc, c :: cs)

/-- `ident()`: consume word characters. -/
def ident (l : List Char) : String × List Char :=
  identAux "" l

/-- The escape mapping inside string literals: `\n`, `\t`, `\r`, and any
other escaped character stands for itself. -/
def escMap (c : Char) : Char :=
  if c = 'n' then '\n' else if c = 't' then '\t' else if c = 'r' then '\r' else c

/-- The quoted-string scan: consume up to the closing quote, handling
backslash escapes; running out of input yields the empty string (the
source resets `s` to `""` when the loop ends unclosed).  A final lone
backslash is appended literally and then the input is exhausted, which is
also the unclosed case. -/
def scanStr : Char → String → List Char → String × List Char
| _, _, [] => ("", [])
| q, acc, c :: cs =>
  if c = q then (acc, cs)
  else if c = '\\' then
    match cs with
    | [] => ("", [])
    | d :: ds => scanStr q (acc.push (escMap d)) ds
  else scanStr q (acc.push c) cs

/-- The digit loop of the number scan: digits plus at most one dot in
total (`dot` records whether one was already consumed). -/
def scanDigits : String → Bool → List Char → String × List Char
| acc, _, [] => (acc, [])
| acc, dot, c :: cs =>
  if c.isDigit then scanDigits (acc.push c) dot cs
  else if c = '.' && !dot then scanDigits (acc.push '.') true cs
  else (acc, c :: cs)

/-- The optional leading `-` of the number scan. -/
def scanNumSign : List Char → String × List Char
| '-' :: cs => ("-", cs)
| l => ("", l)

/-- The number scan: optional leading `-`, optional leading `.` (which
counts as the one permitted dot), then `scanDigits`. -/
def scanNum (l : List Char) : String × List Char :=
  match scanNumSign l with
  | (s, '.' :: cs) => scanDigits (s.push '.') true cs
  | (s, l2) => scanDigits s false l2

/-- `parseFloat` on the strings `scanNum` can produce (sign, digits, at
most one dot): NaN when no digit is present, else the exact decimal
value.  (IEEE rounding of the decimal is not modelled; see header.) -/
def jsParseFloat (s : String) : JSNum :=
  let l := s.data
  if l.any Char.isDigit then
    let (sgn, l1) : Rat × List Char :=
      match l with
      | '-' :: cs => (-1, cs)
      | _ => (1, l)
    let ip := l1.takeWhile Char.isDigit
    let rest := l1.dropWhile Char.isDigit
    let fp : List Char :=
      match rest with
      | '.' :: cs => cs.takeWhile Char.isDigit
      | _ => []
    JSNum.q (sgn * ((digitsVal ip : Rat) + (digitsVal fp : Rat) / ((10 : Rat) ^ fp.length)))
  else JSNum.nan

theorem identAux_le : ∀ (acc : String) (l : List Char), ((identAux acc l).2).length ≤ l.length
| _, [] => by simp [identAux]
| acc, c :: cs => by
  simp only [identAux]
  by_cases h : isWordChar c
  · simpa [h] using le_trans (identAux_le (acc.push c) cs) (Nat.le_succ _)
  · simp [h]

/-- Length bound for `ident` stated on the wrapper. -/
theorem ident_le (l : List Char) : ((ident l).2).length ≤ l.length :=
  identAux_le "" l

/-- The dot-path loop of the variable case, fuelled so that it is
structural: while the next character is `.`, consume it and read the
next segment with `ident`.  Each step consumes the dot, so fuel
`length + 1` always suffices. -/
def scanPathF : Nat → List String → List Char → List String × List Char
| 0, acc, l => (acc, l)
| _ + 1, acc, [] => (acc, [])
| f + 1, acc, c :: cs =>
  if c = '.' then scanPathF f (acc ++ [(ident cs).1]) ((ident cs).2)
  else (acc, c :: cs)

/-- The dot-path loop of the variable case at its sufficient fuel. -/
def scanPath (acc : List String) (l : List Char) : List String × List Char :=
  scanPathF (l.length + 1) acc l

/-- `skip(s)`: consume `s` exactly when the input starts with it. -/
def skipSeq (s l : List Char) : List Char :=
  if s.isPrefixOf l then l.drop s.length else l

/-- The `{{` delimiter. -/
def lblb : List Char := ['\x7b', '\x7b']

/-- The `}}` delimiter. -/
def rbrb : List Char := ['\x7d', '\x7d']

/-- The escaped delimiter `\{{`. -/
def escSeq : List Char := ['\\', '\x7b', '\x7b']

/-- `while (pos < len && !at("}}")) pos++`. -/
def scanToRB : List Char → List Char
| [] => []
| c :: cs => if rbrb.isPrefixOf (c :: cs) then c :: cs else scanToRB cs

/-- The plain-text scan: accumulate characters until a stop sequence, the
escaped delimiter `\{{`, a tag opener `{{`, or end of input. -/
def scanText : List (List Char) → String → List Char → String × List Char
| _, acc, [] => (acc, [])
| stops, acc, c :: cs =>
  if stops.any (fun s => s.isPrefixOf (c :: cs)) then (acc, c :: cs)
  else if escSeq.isPrefixOf (c :: cs) then (acc, c :: cs)
  else if lblb.isPrefixOf (c :: cs) then (acc, c :: cs)
  else scanText stops (acc.push c) cs

mutual

/-- Fueled `parseExpr`: skip whitespace, parse the base expression
(`parseBaseF`), then any pipe suffixes; if nothing was consumed since the
post-whitespace start and input remains, advance one character (the
safety rule — the source compares `pos` with `start`, which over suffixes
of one fixed input is exactly a length comparison). -/
def parseExprF : Nat → List Char → Option (Expr × List Char)
| 0, _ => none
| f + 1, l =>
  let l1 := skipWs l
  match parseBaseF f l1 with
  | none => none
  | some (e0, l2) =>
    match parsePipesF f e0 (skipWs l2) with
    | none => none
    | some (e1, l3) =>
      if l3.length = l1.length then
        match l3 with
        | [] => some (e1, [])
        | _ :: t => some (e1, t)
      else some (e1, l3)

/-- The base-expression dispatch of `parseExpr` on the first character:
a quoted string literal, a number literal (with the `-`/`.`-only quirk
falling back to a one-segment Variable), or the identifier-led cases.
At end of input every test misses and the identifier case applies with
an empty name. -/
def parseBaseF : Nat → List Char → Option (Expr × List Char)
| 0, _ => none
| f + 1, l1 =>
  match l1 with
  | c :: cs =>
    if c = '\x22' || c = '\x27' then
      let p := scanStr c "" cs
      some (Expr.L (Value.str p.1), p.2)
    else if c = '-' || c.isDigit || c = '.' then
      let p := scanNum l1
      if p.1 = "-" || p.1 = "." || p.1 = "" then
        some (Expr.V [if p.1 = "" then "-" else p.1], p.2)
      else some (Expr.L (Value.num (jsParseFloat p.1)), p.2)
    else identOrCallF f l1
  | [] => identOrCallF f []

/-- The identifier-led cases of `parseExpr`: the keywords true/false/null,
a call `name(args…)` (tolerantly closed by `)` if present), or a
dot-path variable. -/
def identOrCallF : Nat → List Char → Option (Expr × List Char)
| 0, _ => none
| f + 1, l =>
  let p := ident l
  if p.1 = "true" then some (Expr.L (Value.bool true), p.2)
  else if p.1 = "false" then some (Expr.L (Value.bool false), p.2)
  else if p.1 = "null" then some (Expr.L Value.null, p.2)
  else
    let l2 := skipWs p.2
    match l2 with
    | '(' :: cs =>
      (match parseArgsF f [] (skipWs cs) with
       | none => none
       | some (args, r) => some (Expr.C p.1 args, skipSeq [')'] r))
    | _ =>
      let q := scanPath [p.1] l2
      some (Expr.V q.1, q.2)

/-- The argument loop shared by calls and pipes (the source repeats it
verbatim in the pipe branch): expressions until `)`, `}` or end of
input, each optionally followed by a comma. -/
def parseArgsF : Nat → List Expr → List Char → Option (List Expr × List Char)
| 0, _, _ => none
| f + 1, acc, l =>
  match l with
  | [] => some (acc, [])
  | c :: cs =>
    if c = ')' || c = '\x7d' then some (acc, c :: cs)
    else
      match parseExprF f (c :: cs) with
      | none => none
      | some (e, r) =>
        let r1 := skipWs r
        let r2 : List Char :=
          match r1 with
          | ',' :: t => skipWs t
          | _ => r1
        parseArgsF f (acc ++ [e]) r2

/-- The pipe loop: while the next character is `|`, read the function
name and optional argument list and wrap the expression in a Pipe. -/
def parsePipesF : Nat → Expr → List Char → Option (Expr × List Char)
| 0, _, _ => none
| f + 1, e, l =>
  match l with
  | c :: cs =>
    if c = '|' then
      let p := ident (skipWs cs)
      let l2 := skipWs p.2
      (match l2 with
       | '(' :: ds =>
         (match parseArgsF f [] (skipWs ds) with
          | none => none
          | some (args, r) => parsePipesF f (Expr.P e p.1 args) (skipWs (skipSeq [')'] r)))
       | _ => parsePipesF f (Expr.P e p.1 []) l2)
    else some (e, c :: cs)
  | [] => some (e, [])

end

/-- The total expression parser: `parseExprF` at its sufficient fuel
(`exprFuelSuff` below shows the fallback is unreachable). -/
def parseExpr (l : List Char) : Expr × List Char :=
  (parseExprF (4 * l.length + 4) l).getD (Expr.V [""], l)

/-- Stop sequence `{{:else if`. -/
def stopElseIf1 : List Char := "\x7b\x7b:else if".data

/-- Stop sequence `{{:elseif`. -/
def stopElseIf2 : List Char := "\x7b\x7b:elseif".data

/-- Stop sequence `{{:else}}`. -/
def stopElse : List Char := "\x7b\x7b:else\x7d\x7d".data

/-- Stop sequence `{{/if}}`. -/
def stopEndIf : List Char := "\x7b\x7b/if\x7d\x7d".data

/-- Stop sequence `{{/each}}`. -/
def stopEndEach : List Char := "\x7b\x7b/each\x7d\x7d".data

/-- The stop set for an `if` branch body. -/
def ifStops : List (List Char) := [stopElseIf1, stopElseIf2, stopElse, stopEndIf]

/-- The stop set for an `each` body. -/
def eachStops : List (List Char) := [stopElse, stopEndEach]

mutual

/-- Fueled `parseNodes(stops)`, one loop iteration per recursive step:
stop check, escaped delimiter, tag (raw / `#if` / `#each` / unknown
block / plain interpolation), or plain text. -/
def parseNodesF : Nat → List (List Char) → List Char → Option (List Node × List Char)
| 0, _, _ => none
| _ + 1, _, [] => some ([], [])
| f + 1, stops, l =>
  if stops.any (fun s => s.isPrefixOf l) then some ([], l)
  else if escSeq.isPrefixOf l then
    -- `\{{` renders as a literal `{{`
    (match parseNodesF f stops (l.drop 3) with
     | none => none
     | some (ns, r) => some (Node.T "\x7b\x7b" :: ns, r))
  else if lblb.isPrefixOf l then
    (match skipWs (l.drop 2) with
     | '+' :: t =>
       -- raw interpolation {{+ expr +}}
       let pe := parseExpr (skipWs t)
       let r2 := skipWs (skipSeq ['+'] (skipWs pe.2))
       let r3 := skipSeq rbrb (scanToRB r2)
       (match parseNodesF f stops r3 with
        | none => none
        | some (ns, r) => some (Node.I pe.1 true :: ns, r))
     | '#' :: t =>
       let pk := ident t
       let t2 := skipWs pk.2
       if pk.1 = "if" then
         let pc := parseExpr t2
         let r2 := skipSeq rbrb (skipWs pc.2)
         match parseNodesF f ifStops r2 with
         | none => none
         | some (body, r3) =>
           match parseElseIfsF f [(pc.1, body)] r3 with
           | none => none
           | some (branches, r4) =>
             if stopElse.isPrefixOf r4 then
               match parseNodesF f [stopEndIf] (r4.drop 9) with
               | none => none
               | some (els, r5) =>
                 match parseNodesF f stops (skipSeq stopEndIf r5) with
                 | none => none
                 | some (ns, r6) => some (Node.F branches (some els) :: ns, r6)
             else
               match parseNodesF f stops (skipSeq stopEndIf r4) with
               | none => none
               | some (ns, r6) => some (Node.F branches none :: ns, r6)
       else if pk.1 = "each" then
         let pa := parseExpr t2
         let pas := ident (skipWs pa.2)
         let r4 := skipWs pas.2
         if pas.1 ≠ "as" then
           -- `continue` without consuming the rest of the tag
           match parseNodesF f stops r4 with
           | none => none
           | some (ns, r) => some (Node.T "[Error: #each missing 'as']" :: ns, r)
         else
           let pit := ident r4
           let pidx : Option String × List Char :=
             match skipWs pit.2 with
             | ',' :: u =>
               let pi2 := ident (skipWs u)
               (some pi2.1, skipWs pi2.2)
             | r6 => (none, r6)
           let r8 := skipSeq rbrb pidx.2
           match parseNodesF f eachStops r8 with
           | none => none
           | some (body, r9) =>
             if stopElse.isPrefixOf r9 then
               match parseNodesF f [stopEndEach] (r9.drop 9) with
               | none => none
               | some (els, r10) =>
                 match parseNodesF f stops (skipSeq stopEndEach r10) with
                 | none => none
                 | some (ns, r11) =>
                   some (Node.E pa.1 pit.1 pidx.1 body (some els) :: ns, r11)
             else
               match parseNodesF f stops (skipSeq stopEndEach r9) with
               | none => none
               | some (ns, r11) =>
                 some (Node.E pa.1 pit.1 pidx.1 body none :: ns, r11)
       else
         -- unknown block keyword
         let r1 := skipSeq rbrb (skipWs t2)
         (match parseNodesF f stops r1 with
          | none => none
          | some (ns, r) => some (Node.T ("[Error: unknown #" ++ pk.1 ++ "]") :: ns, r))
     | l1 =>
       -- plain interpolation {{ expr }}
       let pe := parseExpr l1
       let r2 := skipSeq rbrb (scanToRB (skipWs pe.2))
       (match parseNodesF f stops r2 with
        | none => none
        | some (ns, r) => some (Node.I pe.1 false :: ns, r)))
  else
    let pt := scanText stops "" l
    match parseNodesF f stops pt.2 with
    | none => none
    | some (ns, r) => some ((if pt.1 = "" then ns else Node.T pt.1 :: ns), r)

/-- The else-if loop of an `if` block: while positioned at `{{:else if`
or `{{:elseif`, read a condition and branch body. -/
def parseElseIfsF : Nat → List (Expr × List Node) → List Char →
    Option (List (Expr × List Node) × List Char)
| 0, _, _ => none
| f + 1, acc, l =>
  if stopElseIf1.isPrefixOf l || stopElseIf2.isPrefixOf l then
    let l1 := l.drop (if stopElseIf2.isPrefixOf l then 9 else 10)
    let pc := parseExpr (skipWs l1)
    let r2 := skipSeq rbrb (skipWs pc.2)
    match parseNodesF f ifStops r2 with
    | none => none
    | some (body, r3) => parseElseIfsF f (acc ++ [(pc.1, body)]) r3
  else some (acc, l)

end

/-- `compile`'s parse of a whole template (`nodeFuelSuff` below shows the
fuel suffices, so the fallback is unreachable). -/
def parse (tmpl : String) : List Node :=
  ((parseNodesF (3 * tmpl.data.length + 3) [] tmpl.data).getD ([], [])).1

/-- `render(tmpl, data) = compile(tmpl)(data)`. -/
def render (tmpl : String) (data : Ctx) : String :=
  rn (parse tmpl) data

/-! ## Consumption bounds for the scanners

Every scanner returns a suffix of its input; these bounds feed the
fuel-sufficiency (termination) proof. -/

theorem skipWs_le : ∀ l : List Char, (skipWs l).length ≤ l.length := by
  intro l
  induction l with
  | nil => simp [skipWs]
  | cons c cs ih =>
    simp only [skipWs]
    split
    · exact le_trans ih (Nat.le_succ _)
    · exact le_refl _

theorem scanStr_le : ∀ (q : Char) (acc : String) (l : List Char),
    ((scanStr q acc l).2).length ≤ l.length
| _, _, [] => by exact le_refl _
| q, acc, c :: cs => by
  unfold scanStr
  split
  · exact Nat.le_succ _
  · split
    · match cs with
      | [] => exact Nat.zero_le _
      | d :: ds =>
        simpa using le_trans (scanStr_le q (acc.push (escMap d)) ds)
          (le_trans (Nat.le_succ _) (Nat.le_succ _))
    · exact le_trans (scanStr_le q (acc.push c) cs) (Nat.le_succ _)

theorem scanDigits_le : ∀ (acc : String) (dot : Bool) (l : List Char),
    ((scanDigits acc dot l).2).length ≤ l.length
| _, _, [] => by simp [scanDigits]
| acc, dot, c :: cs => by
  simp only [scanDigits]
  split
  · exact le_trans (scanDigits_le (acc.push c) dot cs) (Nat.le_succ _)
  · split
    · exact le_trans (scanDigits_le (acc.push '.') true cs) (Nat.le_succ _)
    · exact le_refl _

theorem scanNumSign_le (l : List Char) : ((scanNumSign l).2).length ≤ l.length := by
  unfold scanNumSign
  split
  · simp
  · exact le_refl _

theorem scanNum_le (l : List Char) : ((scanNum l).2).length ≤ l.length := by
  unfold scanNum
  split
  next s cs heq =>
    have h := scanNumSign_le l
    rw [heq] at h
    simp only [List.length_cons] at h
    exact le_trans (scanDigits_le _ _ _) (by omega)
  next s l2 heq =>
    have h := scanNumSign_le l
    rw [heq] at h
    exact le_trans (scanDigits_le _ _ _) h

theorem scanPathF_le : ∀ (f : Nat) (acc : List String) (l : List Char),
    ((scanPathF f acc l).2).length ≤ l.length
| 0, _, l => by simp [scanPathF]
| _ + 1, _, [] => by simp [scanPathF]
| f + 1, acc, c :: cs => by
  simp only [scanPathF]
  split
  · exact le_trans (scanPathF_le f _ ((ident cs).2))
      (le_trans (identAux_le "" cs) (Nat.le_succ _))
  · exact le_refl _

theorem scanPath_le (acc : List String) (l : List Char) :
    ((scanPath acc l).2).length ≤ l.length :=
  scanPathF_le _ _ _

theorem skipSeq_le (s l : List Char) : (skipSeq s l).length ≤ l.length := by
  unfold skipSeq
  split
  · simp
  · exact le_refl _

theorem scanToRB_le : ∀ l : List Char, (scanToRB l).length ≤ l.length := by
  intro l
  induction l with
  | nil => simp [scanToRB]
  | cons c cs ih =>
    simp only [scanToRB]
    split
    · exact le_refl _
    · exact le_trans ih (Nat.le_succ _)

theorem scanText_le : ∀ (stops : List (List Char)) (acc : String) (l : List Char),
    ((scanText stops acc l).2).length ≤ l.length
| _, _, [] => by simp [scanText]
| stops, acc, c :: cs => by
  simp only [scanText]
  split
  · exact le_refl _
  · split
    · exact le_refl _
    · split
      · exact le_refl _
      · exact le_trans (scanText_le stops (acc.push c) cs) (Nat.le_succ _)

/-! ## Consumption bounds for the fueled expression parsers

`parseExprF` additionally consumes at least one character from nonempty
input — the effect of the safety rule — which is what keeps the argument
loop and the node parser from looping in place. -/

mutual

theorem parseExprF_le : ∀ (f : Nat) (l : List Char) (e : Expr) (r : List Char),
    parseExprF f l = some (e, r) →
    r.length ≤ l.length ∧ (l ≠ [] → r.length < l.length)
| 0, _, _, _ => fun h => Option.noConfusion h
| f + 1, l, e, r => by
  intro h
  unfold parseExprF at h
  simp only [] at h
  split at h
  · exact Option.noConfusion h
  next e0 l2 hbase =>
    split at h
    · exact Option.noConfusion h
    next e1 l3 hpipes =>
      have hb : l2.length ≤ (skipWs l).length := parseBaseF_le f (skipWs l) e0 l2 hbase
      have hp : l3.length ≤ (skipWs l2).length :=
        parsePipesF_le f e0 (skipWs l2) e1 l3 hpipes
      have hws : (skipWs l).length ≤ l.length := skipWs_le l
      have hws2 : (skipWs l2).length ≤ l2.length := skipWs_le l2
      split at h
      next heq =>
        split at h
        · cases h
          refine ⟨Nat.zero_le _, fun hne => ?_⟩
          cases l with
          | nil => exact absurd rfl hne
          | cons a as => simp
        next x t =>
          cases h
          simp only [List.length_cons] at hp
          exact ⟨by omega, fun _ => by omega⟩
      next hneq =>
        cases h
        exact ⟨by omega, fun _ => by omega⟩

theorem parseBaseF_le : ∀ (f : Nat) (l1 : List Char) (e : Expr) (r : List Char),
    parseBaseF f l1 = some (e, r) → r.length ≤ l1.length
| 0, _, _, _ => fun h => Option.noConfusion h
| f + 1, l1, e, r => by
  intro h
  unfold parseBaseF at h
  split at h
  next c cs =>
    split at h
    · simp only [] at h
      cases h
      exact le_trans (scanStr_le c "" cs) (Nat.le_succ _)
    · split at h
      · simp only [] at h
        split at h
        · cases h; exact scanNum_le (c :: cs)
        · cases h; exact scanNum_le (c :: cs)
      · exact identOrCallF_le f (c :: cs) e r h
  next => exact identOrCallF_le f [] e r h

theorem identOrCallF_le : ∀ (f : Nat) (l : List Char) (e : Expr) (r : List Char),
    identOrCallF f l = some (e, r) → r.length ≤ l.length
| 0, _, _, _ => fun h => Option.noConfusion h
| f + 1, l, e, r => by
  intro h
  unfold identOrCallF at h
  simp only [] at h
  split at h
  · cases h; exact identAux_le "" l
  · split at h
    · cases h; exact identAux_le "" l
    · split at h
      · cases h; exact identAux_le "" l
      · split at h
        next cs heq =>
          split at h
          · exact Option.noConfusion h
          next args r0 hargs =>
            cases h
            have h1 : r0.length ≤ (skipWs cs).length :=
              parseArgsF_le f [] (skipWs cs) args r0 hargs
            have h2 := skipSeq_le [')'] r0
            have h3 := skipWs_le cs
            have h4 : (skipWs (ident l).2).length = cs.length + 1 := by
              rw [heq]; rfl
            have h5 := skipWs_le (ident l).2
            have h6 : ((ident l).2).length ≤ l.length := identAux_le "" l
            omega
        next =>
          cases h
          have h1 := scanPath_le [(ident l).1] (skipWs (ident l).2)
          have h2 := skipWs_le (ident l).2
          have h3 : ((ident l).2).length ≤ l.length := identAux_le "" l
          omega

theorem parseArgsF_le : ∀ (f : Nat) (acc : List Expr) (l : List Char)
    (a : List Expr) (r : List Char),
    parseArgsF f acc l = some (a, r) → r.length ≤ l.length
| 0, _, _, _, _ => fun h => Option.noConfusion h
| f + 1, acc, l, a, r => by
  intro h
  unfold parseArgsF at h
  split at h
  · cases h; exact le_refl _
  next c cs =>
    split at h
    · cases h; exact le_refl _
    · split at h
      · exact Option.noConfusion h
      next e0 r0 hexpr =>
        simp only [] at h
        obtain ⟨he1, he2⟩ := parseExprF_le f (c :: cs) e0 r0 hexpr
        have he3 := he2 (by simp)
        simp only [List.length_cons] at he1 he3 ⊢
        split at h
        next t heq =>
          have hrec := parseArgsF_le f (acc ++ [e0]) (skipWs t) a r h
          have h1 := skipWs_le t
          have h2 : (skipWs r0).length = t.length + 1 := by rw [heq]; rfl
          have h3 := skipWs_le r0
          omega
        next =>
          have hrec := parseArgsF_le f (acc ++ [e0]) (skipWs r0) a r h
          have h3 := skipWs_le r0
          omega

theorem parsePipesF_le : ∀ (f : Nat) (e0 : Expr) (l : List Char)
    (e : Expr) (r : List Char),
    parsePipesF f e0 l = some (e, r) → r.length ≤ l.length
| 0, _, _, _, _ => fun h => Option.noConfusion h
| f + 1, e0, l, e, r => by
  intro h
  unfold parsePipesF at h
  split at h
  next c cs =>
    split at h
    · simp only [] at h
      split at h
      next ds heq =>
        split at h
        · exact Option.noConfusion h
        next args r0 hargs =>
          have hrec := parsePipesF_le f _ _ _ _ h
          have h1 : r0.length ≤ (skipWs ds).length :=
            parseArgsF_le f [] (skipWs ds) args r0 hargs
          have h2 := skipWs_le (skipSeq [')'] r0)
          have h3 := skipSeq_le [')'] r0
          have h4 := skipWs_le ds
          have h5 : (skipWs (ident (skipWs cs)).2).length = ds.length + 1 := by
            rw [heq]; rfl
          have h6 := skipWs_le (ident (skipWs cs)).2
          have h7 : ((ident (skipWs cs)).2).length ≤ (skipWs cs).length :=
            identAux_le "" (skipWs cs)
          have h8 := skipWs_le cs
          simp only [List.length_cons] at *
          omega
      next =>
        have hrec := parsePipesF_le f _ _ _ _ h
        have h6 := skipWs_le (ident (skipWs cs)).2
        have h7 : ((ident (skipWs cs)).2).length ≤ (skipWs cs).length :=
          identAux_le "" (skipWs cs)
        have h8 := skipWs_le cs
        simp only [List.length_cons] at *
        omega
    · cases h; exact le_refl _
  next =>
    cases h
    exact le_refl _

end

/-! ## Fuel sufficiency for the expression parsers

Fuel linear in the remaining input always suffices: every cycle through
the mutually recursive parsers consumes at least one character (for the
argument loop this is exactly the safety rule), so the recursion depth is
bounded.  This is the termination argument of claim C7 at the expression
level. -/

theorem exprFuelSuff : ∀ (n : Nat) (l : List Char), l.length ≤ n →
    ((∀ f, 4 * l.length + 2 ≤ f → (identOrCallF f l).isSome = true)
  ∧ (∀ f, 4 * l.length + 3 ≤ f → (parseBaseF f l).isSome = true)
  ∧ (∀ (e0 : Expr) (f : Nat), 4 * l.length + 3 ≤ f → (parsePipesF f e0 l).isSome = true)
  ∧ (∀ f, 4 * l.length + 4 ≤ f → (parseExprF f l).isSome = true)
  ∧ (∀ (acc : List Expr) (f : Nat), 4 * l.length + 5 ≤ f →
      (parseArgsF f acc l).isSome = true)) := by
  intro n
  induction n using Nat.strong_induction_on with
  | _ n IH =>
  have hI : ∀ l : List Char, l.length ≤ n →
      ∀ f, 4 * l.length + 2 ≤ f → (identOrCallF f l).isSome = true := by
    intro l hl f hf
    obtain ⟨g, rfl⟩ : ∃ g, f = g + 1 := ⟨f - 1, by omega⟩
    unfold identOrCallF
    simp only []
    split
    · simp
    split
    · simp
    split
    · simp
    split
    next cs heq =>
      have hlen : (skipWs (ident l).2).length = cs.length + 1 := by rw [heq]; rfl
      have h5 := skipWs_le (ident l).2
      have h6 : ((ident l).2).length ≤ l.length := identAux_le "" l
      have h7 := skipWs_le cs
      have hargs :=
        ((IH (n - 1) (by omega) (skipWs cs) (by omega)).2.2.2.2) [] g (by omega)
      obtain ⟨⟨args, r0⟩, hx⟩ := Option.isSome_iff_exists.mp hargs
      rw [hx]
      simp
    next => simp
  have hB : ∀ l : List Char, l.length ≤ n →
      ∀ f, 4 * l.length + 3 ≤ f → (parseBaseF f l).isSome = true := by
    intro l hl f hf
    obtain ⟨g, rfl⟩ : ∃ g, f = g + 1 := ⟨f - 1, by omega⟩
    unfold parseBaseF
    split
    next c cs =>
      split
      · simp
      split
      · simp only []
        split
        · simp
        · simp
      · exact hI (c :: cs) hl g (by simp only [List.length_cons] at hf ⊢; omega)
    next => exact hI [] (by omega) g (by simp; omega)
  have hP : ∀ l : List Char, l.length ≤ n →
      ∀ (e0 : Expr) (f : Nat), 4 * l.length + 3 ≤ f →
      (parsePipesF f e0 l).isSome = true := by
    intro l hl e0 f hf
    obtain ⟨g, rfl⟩ : ∃ g, f = g + 1 := ⟨f - 1, by omega⟩
    unfold parsePipesF
    split
    next c cs =>
      split
      case isFalse => simp
      simp only []
      simp only [List.length_cons] at hl hf
      split
      next ds heq =>
        have hlen : (skipWs (ident (skipWs cs)).2).length = ds.length + 1 := by
          rw [heq]; rfl
        have h5 := skipWs_le (ident (skipWs cs)).2
        have h6 : ((ident (skipWs cs)).2).length ≤ (skipWs cs).length :=
          identAux_le "" (skipWs cs)
        have h7 := skipWs_le cs
        have h8 := skipWs_le ds
        have hargs :=
          ((IH (n - 1) (by omega) (skipWs ds) (by omega)).2.2.2.2) [] g (by omega)
        obtain ⟨⟨args, r0⟩, hx⟩ := Option.isSome_iff_exists.mp hargs
        rw [hx]
        have hr0 : r0.length ≤ (skipWs ds).length := parseArgsF_le g [] _ args r0 hx
        have h9 := skipSeq_le [')'] r0
        have h10 := skipWs_le (skipSeq [')'] r0)
        exact (IH (n - 1) (by omega) (skipWs (skipSeq [')'] r0)) (by omega)).2.2.1
          _ g (by omega)
      next =>
        have h5 := skipWs_le (ident (skipWs cs)).2
        have h6 : ((ident (skipWs cs)).2).length ≤ (skipWs cs).length :=
          identAux_le "" (skipWs cs)
        have h7 := skipWs_le cs
        exact (IH (n - 1) (by omega) (skipWs (ident (skipWs cs)).2) (by omega)).2.2.1
          _ g (by omega)
    next => simp
  have hE : ∀ l : List Char, l.length ≤ n →
      ∀ f, 4 * l.length + 4 ≤ f → (parseExprF f l).isSome = true := by
    intro l hl f hf
    obtain ⟨g, rfl⟩ : ∃ g, f = g + 1 := ⟨f - 1, by omega⟩
    unfold parseExprF
    simp only []
    have h1 := skipWs_le l
    have hbase := hB (skipWs l) (by omega) g (by omega)
    obtain ⟨⟨e0, l2⟩, hx⟩ := Option.isSome_iff_exists.mp hbase
    rw [hx]
    dsimp only []
    have h2 : l2.length ≤ (skipWs l).length := parseBaseF_le g (skipWs l) e0 l2 hx
    have h3 := skipWs_le l2
    have hpipes := hP (skipWs l2) (by omega) e0 g (by omega)
    obtain ⟨⟨e1, l3⟩, hy⟩ := Option.isSome_iff_exists.mp hpipes
    rw [hy]
    dsimp only []
    split
    · split
      · simp
      · simp
    · simp
  have hA : ∀ l : List Char, l.length ≤ n →
      ∀ (acc : List Expr) (f : Nat), 4 * l.length + 5 ≤ f →
      (parseArgsF f acc l).isSome = true := by
    intro l hl acc f hf
    obtain ⟨g, rfl⟩ : ∃ g, f = g + 1 := ⟨f - 1, by omega⟩
    unfold parseArgsF
    split
    · simp
    next c cs =>
      simp only [List.length_cons] at hl hf
      split
      · simp
      · have hexpr := hE (c :: cs) (by simp; omega) g (by simp; omega)
        obtain ⟨⟨e0, r0⟩, hx⟩ := Option.isSome_iff_exists.mp hexpr
        rw [hx]
        simp only []
        obtain ⟨hr1, hr2⟩ := parseExprF_le g (c :: cs) e0 r0 hx
        have hr3 := hr2 (by simp)
        simp only [List.length_cons] at hr1 hr3
        have h4 := skipWs_le r0
        split
        next t heq =>
          have h5 : (skipWs r0).length = t.length + 1 := by rw [heq]; rfl
          have h6 := skipWs_le t
          exact (IH (n - 1) (by omega) (skipWs t) (by omega)).2.2.2.2
            (acc ++ [e0]) g (by omega)
        next =>
          exact (IH (n - 1) (by omega) (skipWs r0) (by omega)).2.2.2.2
            (acc ++ [e0]) g (by omega)
  intro l hl
  exact ⟨hI l hl, hB l hl, hP l hl, hE l hl, hA l hl⟩

/-- When the text branch of the node parser is reached, its entry
conditions guarantee the text scan consumes at least one character. -/
theorem scanText_lt (stops : List (List Char)) (c : Char) (cs : List Char)
    (hstop : stops.any (fun s => s.isPrefixOf (c :: cs)) = false)
    (hesc : escSeq.isPrefixOf (c :: cs) = false)
    (htag : lblb.isPrefixOf (c :: cs) = false) :
    ((scanText stops "" (c :: cs)).2).length < (c :: cs).length := by
  simp only [scanText, hstop, hesc, htag]
  simp only [Bool.false_eq_true, if_false]
  exact Nat.lt_succ_of_le (scanText_le stops _ cs)

/-- The total `parseExpr` agrees with the fueled parser at its bound: the
fuel suffices and the fallback is unreachable. -/
theorem parseExpr_eq (l : List Char) :
    parseExprF (4 * l.length + 4) l = some (parseExpr l) := by
  have h := (exprFuelSuff l.length l (le_refl _)).2.2.2.1 (4 * l.length + 4) (le_refl _)
  obtain ⟨p, hp⟩ := Option.isSome_iff_exists.mp h
  unfold parseExpr
  rw [hp]
  rfl

theorem parseExpr_le (l : List Char) : ((parseExpr l).2).length ≤ l.length :=
  (parseExprF_le (4 * l.length + 4) l (parseExpr l).1 (parseExpr l).2
    (by rw [parseExpr_eq])).1

/-- The safety rule in action: an expression parse from nonempty input
always consumes at least one character. -/
theorem parseExpr_lt (c : Char) (cs : List Char) :
    ((parseExpr (c :: cs)).2).length < (c :: cs).length :=
  (parseExprF_le (4 * (c :: cs).length + 4) (c :: cs) (parseExpr (c :: cs)).1
    (parseExpr (c :: cs)).2 (by rw [parseExpr_eq])).2 (by simp)

/-! ## Consumption bounds for the node parser -/

mutual

theorem parseNodesF_le : ∀ (f : Nat) (stops : List (List Char)) (l : List Char)
    (ns : List Node) (r : List Char),
    parseNodesF f stops l = some (ns, r) → r.length ≤ l.length
| 0, _, _, _, _ => fun h => Option.noConfusion h
| _ + 1, _, [], _, _ => by
  intro h
  unfold parseNodesF at h
  cases h
  exact le_refl _
| f + 1, stops, a :: as, ns, r => by
  intro h
  unfold parseNodesF at h
  split at h
  · cases h; exact le_refl _
  split at h
  · -- escaped delimiter
    split at h
    · exact Option.noConfusion h
    next ns0 r0 hrec =>
      cases h
      refine le_trans (parseNodesF_le f stops _ _ _ hrec) ?_
      simp only [List.length_drop]
      omega
  split at h
  · -- a tag
    split at h
    next t heq =>
      -- raw interpolation
      simp only [] at h
      split at h
      · exact Option.noConfusion h
      next ns0 r0 hrec =>
        cases h
        refine le_trans (parseNodesF_le f stops _ _ _ hrec) ?_
        refine le_trans (skipSeq_le _ _) ?_
        refine le_trans (scanToRB_le _) ?_
        refine le_trans (skipWs_le _) ?_
        refine le_trans (skipSeq_le _ _) ?_
        refine le_trans (skipWs_le _) ?_
        refine le_trans (parseExpr_le _) ?_
        refine le_trans (skipWs_le _) ?_
        have hlen : (skipWs ((a :: as).drop 2)).length = t.length + 1 := by rw [heq]; rfl
        have h3 := skipWs_le ((a :: as).drop 2)
        simp only [List.length_drop, List.length_cons] at h3 hlen ⊢
        omega
    next t heq =>
      -- block tag
      simp only [] at h
      have hlen : (skipWs ((a :: as).drop 2)).length = t.length + 1 := by rw [heq]; rfl
      have hsw := skipWs_le ((a :: as).drop 2)
      have htb : t.length ≤ (a :: as).length := by
        simp only [List.length_drop, List.length_cons] at hsw hlen ⊢
        omega
      split at h
      · -- if block
        split at h
        · exact Option.noConfusion h
        next body r3 hbody =>
          split at h
          · exact Option.noConfusion h
          next branches r4 helse =>
            have hb1 := parseNodesF_le f ifStops _ _ _ hbody
            have hb2 := parseElseIfsF_le f _ _ _ _ helse
            have hb3 : (skipSeq rbrb (skipWs (parseExpr (skipWs (ident t).2)).2)).length
                ≤ t.length := by
              refine le_trans (skipSeq_le _ _) ?_
              refine le_trans (skipWs_le _) ?_
              refine le_trans (parseExpr_le _) ?_
              refine le_trans (skipWs_le _) ?_
              exact identAux_le "" t
            split at h
            · split at h
              · exact Option.noConfusion h
              next els r5 hels =>
                split at h
                · exact Option.noConfusion h
                next ns0 r6 hrec =>
                  cases h
                  have hb4 := parseNodesF_le f [stopEndIf] _ _ _ hels
                  have hb5 := parseNodesF_le f stops _ _ _ hrec
                  have hb6 := skipSeq_le stopEndIf r5
                  simp only [List.length_drop] at hb4
                  omega
            · split at h
              · exact Option.noConfusion h
              next ns0 r6 hrec =>
                cases h
                have hb5 := parseNodesF_le f stops _ _ _ hrec
                have hb6 := skipSeq_le stopEndIf r4
                omega
      split at h
      · -- each block
        split at h
        · -- missing 'as'
          split at h
          · exact Option.noConfusion h
          next ns0 r0 hrec =>
            cases h
            refine le_trans (parseNodesF_le f stops _ _ _ hrec) ?_
            refine le_trans (skipWs_le _) ?_
            refine le_trans (ident_le _) ?_
            refine le_trans (skipWs_le _) ?_
            refine le_trans (parseExpr_le _) ?_
            refine le_trans (skipWs_le _) ?_
            exact le_trans (ident_le t) htb
        · -- proper each
          split at h
          · exact Option.noConfusion h
          next body r9 hbody =>
            have hb1 := parseNodesF_le f eachStops _ _ _ hbody
            have base : (skipWs (ident (skipWs (ident (skipWs
                (parseExpr (skipWs (ident t).2)).2)).2)).2).length ≤ t.length := by
              refine le_trans (skipWs_le _) ?_
              refine le_trans (ident_le _) ?_
              refine le_trans (skipWs_le _) ?_
              refine le_trans (ident_le _) ?_
              refine le_trans (skipWs_le _) ?_
              refine le_trans (parseExpr_le _) ?_
              refine le_trans (skipWs_le _) ?_
              exact ident_le t
            have hb3 : (skipSeq rbrb (match skipWs (ident (skipWs (ident (skipWs
                (parseExpr (skipWs (ident t).2)).2)).2)).2 with
                | ',' :: u => (some (ident (skipWs u)).1, skipWs (ident (skipWs u)).2)
                | r6 => (none, r6)).2).length ≤ t.length := by
              refine le_trans (skipSeq_le _ _) ?_
              split
              next u hequ =>
                dsimp only
                have hlu : (skipWs (ident (skipWs (ident (skipWs
                    (parseExpr (skipWs (ident t).2)).2)).2)).2).length = u.length + 1 := by
                  rw [hequ]; rfl
                have c0 := skipWs_le u
                have c1 : ((ident (skipWs u)).2).length ≤ (skipWs u).length :=
                  ident_le (skipWs u)
                have c2 := skipWs_le (ident (skipWs u)).2
                omega
              next => dsimp only; exact base
            split at h
            · split at h
              · exact Option.noConfusion h
              next els r10 hels =>
                split at h
                · exact Option.noConfusion h
                next ns0 r11 hrec =>
                  cases h
                  have hb4 := parseNodesF_le f [stopEndEach] _ _ _ hels
                  have hb5 := parseNodesF_le f stops _ _ _ hrec
                  have hb6 := skipSeq_le stopEndEach r10
                  simp only [List.length_drop] at hb4
                  omega
            · split at h
              · exact Option.noConfusion h
              next ns0 r11 hrec =>
                cases h
                have hb5 := parseNodesF_le f stops _ _ _ hrec
                have hb6 := skipSeq_le stopEndEach r9
                omega
      · -- unknown block keyword
        split at h
        · exact Option.noConfusion h
        next ns0 r0 hrec =>
          cases h
          refine le_trans (parseNodesF_le f stops _ _ _ hrec) ?_
          refine le_trans (skipSeq_le _ _) ?_
          refine le_trans (skipWs_le _) ?_
          refine le_trans (skipWs_le _) ?_
          exact le_trans (ident_le t) htb
    next l1 heq1 heq2 =>
      -- plain interpolation
      simp only [] at h
      split at h
      · exact Option.noConfusion h
      next ns0 r0 hrec =>
        cases h
        refine le_trans (parseNodesF_le f stops _ _ _ hrec) ?_
        refine le_trans (skipSeq_le _ _) ?_
        refine le_trans (scanToRB_le _) ?_
        refine le_trans (skipWs_le _) ?_
        refine le_trans (parseExpr_le _) ?_
        refine le_trans (skipWs_le _) ?_
        simp only [List.length_drop, List.length_cons]
        omega
  · -- plain text
    simp only [] at h
    split at h
    · exact Option.noConfusion h
    next ns0 r0 hrec =>
      cases h
      refine le_trans (parseNodesF_le f stops _ _ _ hrec) ?_
      exact scanText_le stops "" (a :: as)

theorem parseElseIfsF_le : ∀ (f : Nat) (acc : List (Expr × List Node)) (l : List Char)
    (a : List (Expr × List Node)) (r : List Char),
    parseElseIfsF f acc l = some (a, r) → r.length ≤ l.length
| 0, _, _, _, _ => fun h => Option.noConfusion h
| f + 1, acc, l, a, r => by
  intro h
  unfold parseElseIfsF at h
  split at h
  · simp only [] at h
    split at h
    · exact Option.noConfusion h
    next body r3 hbody =>
      refine le_trans (parseElseIfsF_le f _ _ _ _ h) ?_
      refine le_trans (parseNodesF_le f ifStops _ _ _ hbody) ?_
      refine le_trans (skipSeq_le _ _) ?_
      refine le_trans (skipWs_le _) ?_
      refine le_trans (parseExpr_le _) ?_
      refine le_trans (skipWs_le _) ?_
      generalize (if stopElseIf2.isPrefixOf l then 9 else 10) = k
      simp [List.length_drop]
  · cases h; exact le_refl _

end

theorem isPrefixOf_length {s l : List Char} (h : s.isPrefixOf l = true) :
    s.length ≤ l.length :=
  (List.isPrefixOf_iff_prefix.mp h).length_le

/-! ## Fuel sufficiency for the node parser

Every loop iteration of `parseNodes` consumes at least one character
before recursing (a tag consumes its `{{`, the text scan consumes at
least the first character, an escaped delimiter consumes three), so fuel
linear in the input suffices — the node-level termination argument of
claim C7. -/

theorem nodeFuelSuff : ∀ (n : Nat) (l : List Char), l.length ≤ n →
    ((∀ (stops : List (List Char)) (f : Nat), 3 * l.length + 3 ≤ f →
        (parseNodesF f stops l).isSome = true)
  ∧ (∀ (acc : List (Expr × List Node)) (f : Nat), 3 * l.length + 2 ≤ f →
        (parseElseIfsF f acc l).isSome = true)) := by
  intro n
  induction n using Nat.strong_induction_on with
  | _ n IH =>
  have hN : ∀ l : List Char, l.length ≤ n →
      ∀ (stops : List (List Char)) (f : Nat), 3 * l.length + 3 ≤ f →
      (parseNodesF f stops l).isSome = true := by
    intro l hl stops f hf
    obtain ⟨g, rfl⟩ : ∃ g, f = g + 1 := ⟨f - 1, by omega⟩
    match l, hl, hf with
    | [], hl, hf => unfold parseNodesF; simp
    | a :: as, hl, hf =>
    simp only [List.length_cons] at hl hf
    unfold parseNodesF
    split
    · simp
    split
    next hesc =>
      have h3 : (3 : Nat) ≤ (a :: as).length := isPrefixOf_length hesc
      simp only [List.length_cons] at h3
      have hx := (IH (n - 1) (by omega) ((a :: as).drop 3)
        (by simp only [List.length_drop, List.length_cons]; omega)).1 stops g
        (by simp only [List.length_drop, List.length_cons]; omega)
      obtain ⟨⟨ns0, r0⟩, he⟩ := Option.isSome_iff_exists.mp hx
      rw [he]
      simp
    next =>
    split
    next htag =>
      split
      next t heq =>
        -- raw interpolation
        have hlen : (skipWs ((a :: as).drop 2)).length = t.length + 1 := by rw [heq]; rfl
        have hsw := skipWs_le ((a :: as).drop 2)
        simp only [List.length_drop, List.length_cons] at hsw hlen
        have hb : (skipSeq rbrb (scanToRB (skipWs (skipSeq ['+']
            (skipWs (parseExpr (skipWs t)).2))))).length ≤ t.length := by
          refine le_trans (skipSeq_le _ _) ?_
          refine le_trans (scanToRB_le _) ?_
          refine le_trans (skipWs_le _) ?_
          refine le_trans (skipSeq_le _ _) ?_
          refine le_trans (skipWs_le _) ?_
          refine le_trans (parseExpr_le _) ?_
          exact skipWs_le t
        simp only []
        have hx := (IH (n - 1) (by omega) _ (le_trans hb (by omega))).1 stops g
          (by omega)
        obtain ⟨⟨ns0, r0⟩, he⟩ := Option.isSome_iff_exists.mp hx
        rw [he]
        simp
      next t heq =>
        -- block tag
        have hlen : (skipWs ((a :: as).drop 2)).length = t.length + 1 := by rw [heq]; rfl
        have hsw := skipWs_le ((a :: as).drop 2)
        simp only [List.length_drop, List.length_cons] at hsw hlen
        simp only []
        split
        · -- if block
          have ha1 : (skipSeq rbrb (skipWs (parseExpr (skipWs (ident t).2)).2)).length
              ≤ t.length := by
            refine le_trans (skipSeq_le _ _) ?_
            refine le_trans (skipWs_le _) ?_
            refine le_trans (parseExpr_le _) ?_
            refine le_trans (skipWs_le _) ?_
            exact ident_le t
          have hx1 := (IH (n - 1) (by omega) _ (le_trans ha1 (by omega))).1 ifStops g
            (by omega)
          obtain ⟨⟨body, r3⟩, he1⟩ := Option.isSome_iff_exists.mp hx1
          rw [he1]
          dsimp only
          have hb1 : r3.length ≤ t.length :=
            le_trans (parseNodesF_le g ifStops _ _ _ he1) ha1
          have hx2 := (IH (n - 1) (by omega) r3 (by omega)).2
            [((parseExpr (skipWs (ident t).2)).1, body)] g (by omega)
          obtain ⟨⟨branches, r4⟩, he2⟩ := Option.isSome_iff_exists.mp hx2
          rw [he2]
          dsimp only
          have hb2 : r4.length ≤ r3.length := parseElseIfsF_le g _ _ _ _ he2
          split
          next helse =>
            have h9 : (9 : Nat) ≤ r4.length := isPrefixOf_length helse
            have hx3 := (IH (n - 1) (by omega) (r4.drop 9)
              (by simp only [List.length_drop]; omega)).1 [stopEndIf] g
              (by simp only [List.length_drop]; omega)
            obtain ⟨⟨els, r5⟩, he3⟩ := Option.isSome_iff_exists.mp hx3
            rw [he3]
            dsimp only
            have hb3 : r5.length ≤ r4.length - 9 := by
              have := parseNodesF_le g [stopEndIf] _ _ _ he3
              simp only [List.length_drop] at this
              omega
            have hb4 := skipSeq_le stopEndIf r5
            have hx4 := (IH (n - 1) (by omega) (skipSeq stopEndIf r5) (by omega)).1
              stops g (by omega)
            obtain ⟨⟨ns0, r6⟩, he4⟩ := Option.isSome_iff_exists.mp hx4
            rw [he4]
            simp
          next =>
            have hb4 := skipSeq_le stopEndIf r4
            have hx4 := (IH (n - 1) (by omega) (skipSeq stopEndIf r4) (by omega)).1
              stops g (by omega)
            obtain ⟨⟨ns0, r6⟩, he4⟩ := Option.isSome_iff_exists.mp hx4
            rw [he4]
            simp
        split
        · -- each block
          split
          · -- missing 'as'
            have ha1 : (skipWs (ident (skipWs (parseExpr (skipWs (ident t).2)).2)).2).length
                ≤ t.length := by
              refine le_trans (skipWs_le _) ?_
              refine le_trans (ident_le _) ?_
              refine le_trans (skipWs_le _) ?_
              refine le_trans (parseExpr_le _) ?_
              refine le_trans (skipWs_le _) ?_
              exact ident_le t
            have hx := (IH (n - 1) (by omega) _ (le_trans ha1 (by omega))).1 stops g
              (by omega)
            obtain ⟨⟨ns0, r0⟩, he⟩ := Option.isSome_iff_exists.mp hx
            rw [he]
            simp
          · -- proper each
            have base : (skipWs (ident (skipWs (ident (skipWs
                (parseExpr (skipWs (ident t).2)).2)).2)).2).length ≤ t.length := by
              refine le_trans (skipWs_le _) ?_
              refine le_trans (ident_le _) ?_
              refine le_trans (skipWs_le _) ?_
              refine le_trans (ident_le _) ?_
              refine le_trans (skipWs_le _) ?_
              refine le_trans (parseExpr_le _) ?_
              refine le_trans (skipWs_le _) ?_
              exact ident_le t
            have ha1 : (skipSeq rbrb (match skipWs (ident (skipWs (ident (skipWs
                (parseExpr (skipWs (ident t).2)).2)).2)).2 with
                | ',' :: u => (some (ident (skipWs u)).1, skipWs (ident (skipWs u)).2)
                | r6 => (none, r6)).2).length ≤ t.length := by
              refine le_trans (skipSeq_le _ _) ?_
              split
              next u hequ =>
                dsimp only
                have hlu : (skipWs (ident (skipWs (ident (skipWs
                    (parseExpr (skipWs (ident t).2)).2)).2)).2).length = u.length + 1 := by
                  rw [hequ]; rfl
                have c0 := skipWs_le u
                have c1 : ((ident (skipWs u)).2).length ≤ (skipWs u).length :=
                  ident_le (skipWs u)
                have c2 := skipWs_le (ident (skipWs u)).2
                omega
              next => dsimp only; exact base
            have hx1 := (IH (n - 1) (by omega) _ (le_trans ha1 (by omega))).1
              eachStops g (by omega)
            obtain ⟨⟨body, r9⟩, he1⟩ := Option.isSome_iff_exists.mp hx1
            rw [he1]
            dsimp only
            have hb1 : r9.length ≤ t.length :=
              le_trans (parseNodesF_le g eachStops _ _ _ he1) ha1
            split
            next helse =>
              have h9 : (9 : Nat) ≤ r9.length := isPrefixOf_length helse
              have hx2 := (IH (n - 1) (by omega) (r9.drop 9)
                (by simp only [List.length_drop]; omega)).1 [stopEndEach] g
                (by simp only [List.length_drop]; omega)
              obtain ⟨⟨els, r10⟩, he2⟩ := Option.isSome_iff_exists.mp hx2
              rw [he2]
              dsimp only
              have hb2 : r10.length ≤ r9.length - 9 := by
                have := parseNodesF_le g [stopEndEach] _ _ _ he2
                simp only [List.length_drop] at this
                omega
              have hb3 := skipSeq_le stopEndEach r10
              have hx3 := (IH (n - 1) (by omega) (skipSeq stopEndEach r10) (by omega)).1
                stops g (by omega)
              obtain ⟨⟨ns0, r11⟩, he3⟩ := Option.isSome_iff_exists.mp hx3
              rw [he3]
              simp
            next =>
              have hb3 := skipSeq_le stopEndEach r9
              have hx3 := (IH (n - 1) (by omega) (skipSeq stopEndEach r9) (by omega)).1
                stops g (by omega)
              obtain ⟨⟨ns0, r11⟩, he3⟩ := Option.isSome_iff_exists.mp hx3
              rw [he3]
              simp
        · -- unknown block keyword
          have ha1 : (skipSeq rbrb (skipWs (skipWs (ident t).2))).length ≤ t.length := by
            refine le_trans (skipSeq_le _ _) ?_
            refine le_trans (skipWs_le _) ?_
            refine le_trans (skipWs_le _) ?_
            exact ident_le t
          have hx := (IH (n - 1) (by omega) _ (le_trans ha1 (by omega))).1 stops g
            (by omega)
          obtain ⟨⟨ns0, r0⟩, he⟩ := Option.isSome_iff_exists.mp hx
          rw [he]
          simp
      next l1 heq1 heq2 =>
        -- plain interpolation
        have hsw := skipWs_le ((a :: as).drop 2)
        simp only [List.length_drop, List.length_cons] at hsw
        have hb : (skipSeq rbrb (scanToRB (skipWs
            (parseExpr (skipWs ((a :: as).drop 2))).2))).length
            ≤ (skipWs ((a :: as).drop 2)).length := by
          refine le_trans (skipSeq_le _ _) ?_
          refine le_trans (scanToRB_le _) ?_
          refine le_trans (skipWs_le _) ?_
          exact parseExpr_le _
        simp only []
        have hx := (IH (n - 1) (by omega) _ (le_trans hb (by omega))).1 stops g
          (by omega)
        obtain ⟨⟨ns0, r0⟩, he⟩ := Option.isSome_iff_exists.mp hx
        rw [he]
        simp
    next htag =>
      -- plain text
      rename_i hstop hesc
      have hlt : ((scanText stops "" (a :: as)).2).length < (a :: as).length :=
        scanText_lt stops a as (Bool.eq_false_iff.mpr hstop) (Bool.eq_false_iff.mpr hesc)
          (Bool.eq_false_iff.mpr htag)
      simp only [List.length_cons] at hlt
      simp only []
      have hx := (IH (n - 1) (by omega) ((scanText stops "" (a :: as)).2)
        (by omega)).1 stops g (by omega)
      obtain ⟨⟨ns0, r0⟩, he⟩ := Option.isSome_iff_exists.mp hx
      rw [he]
      split <;> simp_all
  have hEI : ∀ l : List Char, l.length ≤ n →
      ∀ (acc : List (Expr × List Node)) (f : Nat), 3 * l.length + 2 ≤ f →
      (parseElseIfsF f acc l).isSome = true := by
    intro l hl acc f hf
    obtain ⟨g, rfl⟩ : ∃ g, f = g + 1 := ⟨f - 1, by omega⟩
    unfold parseElseIfsF
    split
    next hpre =>
      have h9 : (9 : Nat) ≤ l.length := by
        have hpre2 : stopElseIf1.isPrefixOf l = true ∨ stopElseIf2.isPrefixOf l = true := by
          rcases Bool.or_eq_true _ _ |>.mp hpre with h | h
          · exact Or.inl h
          · exact Or.inr h
        rcases hpre2 with h | h
        · have h1 := isPrefixOf_length h
          have h2 : stopElseIf1.length = 10 := rfl
          omega
        · have h1 := isPrefixOf_length h
          have h2 : stopElseIf2.length = 9 := rfl
          omega
      simp only []
      have hdk : (l.drop (if stopElseIf2.isPrefixOf l then 9 else 10)).length ≤
          l.length - 9 := by
        simp only [List.length_drop]
        split <;> omega
      have ha1 : (skipSeq rbrb (skipWs (parseExpr (skipWs
          (l.drop (if stopElseIf2.isPrefixOf l then 9 else 10)))).2)).length ≤
          l.length - 9 := by
        refine le_trans (skipSeq_le _ _) ?_
        refine le_trans (skipWs_le _) ?_
        refine le_trans (parseExpr_le _) ?_
        exact le_trans (skipWs_le _) hdk
      have hx1 := (IH (n - 1) (by omega) _ (le_trans ha1 (by omega))).1 ifStops g
        (by omega)
      obtain ⟨⟨body, r3⟩, he1⟩ := Option.isSome_iff_exists.mp hx1
      rw [he1]
      dsimp only
      have hb1 : r3.length ≤ l.length - 9 :=
        le_trans (parseNodesF_le g ifStops _ _ _ he1) ha1
      have hx2 := (IH (n - 1) (by omega) r3 (by omega)).2
        (acc ++ [((parseExpr (skipWs (l.drop (if stopElseIf2.isPrefixOf l then 9
          else 10)))).1, body)]) g (by omega)
      exact hx2
    next => simp
  intro l hl
  exact ⟨hN l hl, hEI l hl⟩

/-! ## Context lemmas: `setKey` is a shallow copy with one override -/

theorem lookup_map_self : ∀ (m : Ctx) (k : String) (v : Value), hasKey m k = true →
    lookupCtx (m.map (fun p => if p.1 = k then (k, v) else p)) k = some v
| [], k, v => by intro hk; simp [hasKey, lookupCtx] at hk
| (k1, v1) :: rest, k, v => by
  intro hk
  simp only [List.map_cons]
  by_cases h1 : k1 = k
  · subst h1
    rw [show (if ((k1, v1) : String × Value).1 = k1 then (k1, v) else (k1, v1))
        = (k1, v) from by simp]
    show (if k1 = k1 then some v else _) = some v
    rw [if_pos rfl]
  · have hk2 : hasKey rest k = true := by
      simpa [hasKey, lookupCtx, h1] using hk
    rw [show (if ((k1, v1) : String × Value).1 = k then (k, v) else (k1, v1))
        = (k1, v1) from by simp [h1]]
    show (if k1 = k then some v1 else _) = some v
    rw [if_neg h1]
    exact lookup_map_self rest k v hk2

theorem lookup_map_other : ∀ (m : Ctx) (k k' : String) (v : Value), k' ≠ k →
    lookupCtx (m.map (fun p => if p.1 = k then (k, v) else p)) k' = lookupCtx m k'
| [], _, _, _ => by intro _; rfl
| (k1, v1) :: rest, k, k', v => by
  intro hne
  simp only [List.map_cons]
  by_cases h1 : k1 = k
  · subst h1
    rw [show (if ((k1, v1) : String × Value).1 = k1 then (k1, v) else (k1, v1))
        = (k1, v) from by simp]
    show (if k1 = k' then some v else _) = (if k1 = k' then some v1 else _)
    rw [if_neg (fun h => hne h.symm), if_neg (fun h => hne h.symm)]
    exact lookup_map_other rest k1 k' v hne
  · rw [show (if ((k1, v1) : String × Value).1 = k then (k, v) else (k1, v1))
        = (k1, v1) from by simp [h1]]
    show (if k1 = k' then some v1 else _) = (if k1 = k' then some v1 else _)
    by_cases h2 : k1 = k'
    · rw [if_pos h2, if_pos h2]
    · rw [if_neg h2, if_neg h2]
      exact lookup_map_other rest k k' v hne

theorem lookup_append_self : ∀ (m : Ctx) (k : String) (v : Value),
    lookupCtx m k = none → lookupCtx (m ++ [(k, v)]) k = some v
| [], k, v => by
  intro _
  show (if k = k then some v else lookupCtx [] k) = some v
  rw [if_pos rfl]
| (k1, v1) :: rest, k, v => by
  intro h
  have h1 : ¬k1 = k := by
    intro he
    rw [show lookupCtx ((k1, v1) :: rest) k
        = (if k1 = k then some v1 else lookupCtx rest k) from rfl, if_pos he] at h
    exact Option.noConfusion h
  show (if k1 = k then some v1 else lookupCtx (rest ++ [(k, v)]) k) = some v
  rw [if_neg h1]
  refine lookup_append_self rest k v ?_
  rw [show lookupCtx ((k1, v1) :: rest) k
      = (if k1 = k then some v1 else lookupCtx rest k) from rfl, if_neg h1] at h
  exact h

theorem lookup_append_single : ∀ (m : Ctx) (k k' : String) (v : Value), k' ≠ k →
    lookupCtx (m ++ [(k, v)]) k' = lookupCtx m k'
| [], k, k', v => by
  intro hne
  show (if k = k' then some v else lookupCtx [] k') = lookupCtx [] k'
  rw [if_neg (fun h => hne h.symm)]
| (k1, v1) :: rest, k, k', v => by
  intro hne
  show (if k1 = k' then some v1 else lookupCtx (rest ++ [(k, v)]) k')
      = (if k1 = k' then some v1 else lookupCtx rest k')
  by_cases h1 : k1 = k'
  · rw [if_pos h1, if_pos h1]
  · rw [if_neg h1, if_neg h1]
    exact lookup_append_single rest k k' v hne

/-- Setting a key makes it resolve to the new value. -/
theorem lookup_setKey_self (m : Ctx) (k : String) (v : Value) :
    lookupCtx (setKey m k v) k = some v := by
  unfold setKey
  split
  next hk => exact lookup_map_self m k v hk
  next hk =>
    refine lookup_append_self m k v ?_
    simp only [hasKey, Bool.not_eq_true] at hk
    exact Option.not_isSome_iff_eq_none.mp (by simp [hk])

/-- Setting a key leaves every other key unchanged — the child context is
a shallow copy of the enclosing one. -/
theorem lookup_setKey_other (m : Ctx) (k k' : String) (v : Value) (h : k' ≠ k) :
    lookupCtx (setKey m k v) k' = lookupCtx m k' := by
  unfold setKey
  split
  · exact lookup_map_other m k k' v h
  · exact lookup_append_single m k k' v h

/-! ## Escaping lemmas -/

theorem flatten_singletons : ∀ l : List Char, (l.map (fun c => [c])).flatten = l
| [] => rfl
| c :: cs => by simp [flatten_singletons cs]

/-- `esc` is the identity on strings with no escapable character. -/
theorem esc_eq_self (s : String) (h : ∀ c ∈ s.data, escChar1 c = String.mk [c]) :
    esc s = s := by
  unfold esc
  apply String.ext
  rw [String.data_join, List.map_map]
  have h2 : s.data.map (String.data ∘ escChar1) = s.data.map (fun c => [c]) := by
    apply List.map_congr_left
    intro c hc
    rw [Function.comp_apply, h c hc]
  rw [h2, flatten_singletons]

theorem digitChar_unescaped (m : Nat) (h : m < 10) :
    escChar1 (Nat.digitChar m) = String.mk [Nat.digitChar m] := by
  interval_cases m <;> rfl

theorem toDigitsCore_unescaped : ∀ (f n : Nat) (acc : List Char),
    (∀ c ∈ acc, escChar1 c = String.mk [c]) →
    ∀ c ∈ Nat.toDigitsCore 10 f n acc, escChar1 c = String.mk [c] := by
  intro f
  induction f with
  | zero => intro n acc hacc; simpa [Nat.toDigitsCore] using hacc
  | succ f ih =>
    intro n acc hacc c hc
    simp only [Nat.toDigitsCore] at hc
    split at hc
    · rcases List.mem_cons.mp hc with h | h
      · subst h; exact digitChar_unescaped _ (Nat.mod_lt _ (by norm_num))
      · exact hacc c h
    · refine ih (n / 10) (Nat.digitChar (n % 10) :: acc) ?_ c hc
      intro d hd
      rcases List.mem_cons.mp hd with h | h
      · subst h; exact digitChar_unescaped _ (Nat.mod_lt _ (by norm_num))
      · exact hacc d h

/-- The decimal representation of a natural number passes through the
HTML escaper unchanged. -/
theorem esc_natRepr (n : Nat) : esc (Nat.repr n) = Nat.repr n := by
  refine esc_eq_self _ ?_
  intro c hc
  refine toDigitsCore_unescaped (n + 1) n [] (by intro d hd; cases hd) c ?_
  simpa [Nat.repr, Nat.toDigits, List.asString] using hc

/-! ## Path-resolution lemmas -/

theorem resolvePath_undef : ∀ ys : List String, resolvePath ys Value.undef = Value.undef
| [] => rfl
| _ :: _ => rfl

/-- Path resolution walks left to right: a path splits into sequential
walks. -/
theorem resolvePath_append : ∀ (xs ys : List String) (v : Value),
    resolvePath (xs ++ ys) v = resolvePath ys (resolvePath xs v)
| [], _, _ => rfl
| k :: ks, ys, v => by
  match v with
  | Value.null =>
    show Value.undef = resolvePath ys (resolvePath (k :: ks) Value.null)
    rw [show resolvePath (k :: ks) Value.null = Value.undef from rfl, resolvePath_undef]
  | Value.undef =>
    show Value.undef = resolvePath ys (resolvePath (k :: ks) Value.undef)
    rw [resolvePath_undef, resolvePath_undef]
  | Value.str s =>
    simp only [resolvePath, List.cons_append]
    split
    · exact resolvePath_append ks ys _
    · rw [resolvePath_undef]
  | Value.num n =>
    simp only [resolvePath, List.cons_append]
    split
    · exact resolvePath_append ks ys _
    · rw [resolvePath_undef]
  | Value.bool b =>
    simp only [resolvePath, List.cons_append]
    split
    · exact resolvePath_append ks ys _
    · rw [resolvePath_undef]
  | Value.arr l =>
    simp only [resolvePath, List.cons_append]
    split
    · exact resolvePath_append ks ys _
    · rw [resolvePath_undef]
  | Value.obj m =>
    simp only [resolvePath, List.cons_append]
    split
    · exact resolvePath_append ks ys _
    · rw [resolvePath_undef]

/-! ## Evaluator helper equations -/

/-- The evaluated operand list has exactly as many entries as the
argument expression list. -/
theorem evList_length : ∀ (a : List Expr) (ctx : Ctx),
    (evList a ctx).length = a.length
| [], ctx => by simp [evList]
| e :: es, ctx => by simp [evList, evList_length es ctx]

/-- `ckV` flags an under-supplied call with the arity-error string. -/
theorem ckV_lt (vs : List Value) (n : Nat) (name : String) (h : vs.length < n) :
    ckV vs n name
      = some ("[Error: " ++ name ++ "() needs " ++ toString n ++ " args]") := by
  unfold ckV
  rw [if_pos h]

/-- Dispatching `and` reaches the short-circuit loop with `r = true`. -/
theorem evalFn_and (a : List Expr) (ctx : Ctx) :
    evalFn "and" a ctx = evAnd a (Value.bool true) ctx := by
  rw [evalFn.eq_def]
  simp only [String.reduceEq, reduceIte]

/-- Dispatching `or` reaches the short-circuit loop with `r = false`. -/
theorem evalFn_or (a : List Expr) (ctx : Ctx) :
    evalFn "or" a ctx = evOr a (Value.bool false) ctx := by
  rw [evalFn.eq_def]
  simp only [String.reduceEq, reduceIte]

theorem evAnd_skip_truthy (ctx : Ctx) :
    ∀ (xs : List Expr) (rest : List Expr) (r : Value),
    (∀ x ∈ xs, truthy (ev x ctx) = true) →
    ∃ r2, evAnd (xs ++ rest) r ctx = evAnd rest r2 ctx
| [], rest, r => fun _ => ⟨r, rfl⟩
| x :: xs, rest, r => by
  intro hall
  have hx := hall x (by simp)
  simp only [List.cons_append, evAnd, hx, if_true]
  exact evAnd_skip_truthy ctx xs rest (ev x ctx) (fun y hy => hall y (by simp [hy]))

theorem evOr_skip_falsy (ctx : Ctx) :
    ∀ (xs : List Expr) (rest : List Expr) (r : Value),
    (∀ x ∈ xs, truthy (ev x ctx) = false) →
    ∃ r2, evOr (xs ++ rest) r ctx = evOr rest r2 ctx
| [], rest, r => fun _ => ⟨r, rfl⟩
| x :: xs, rest, r => by
  intro hall
  have hx := hall x (by simp)
  simp only [List.cons_append, evOr, hx, Bool.false_eq_true, if_false]
  exact evOr_skip_falsy ctx xs rest (ev x ctx) (fun y hy => hall y (by simp [hy]))

/-! ## Claim theorems -/

/-- C3: a Value is falsy exactly when it is null, undefined, `false`,
numeric zero, NaN, the empty string, an empty sequence, or a mapping with
zero keys; everything else — including any non-empty sequence or mapping
regardless of its contents — is truthy.  The further conjuncts record
that this predicate is what selects Conditional branches, what the empty
check of the Loop fallback coincides with on sequences, and what drives
the logical built-ins `and`/`or`. -/
theorem c3_truthiness_partition :
    (∀ v : Value, truthy v = false ↔
      (v = Value.null ∨ v = Value.undef ∨ v = Value.bool false ∨
       v = Value.num (JSNum.q 0) ∨ v = Value.num JSNum.nan ∨ v = Value.str "" ∨
       v = Value.arr [] ∨ v = Value.obj []))
  ∧ (∀ (c : Expr) (b : List Node) (bs : List (Expr × List Node))
       (els : Option (List Node)) (ctx : Ctx),
       rnF ((c, b) :: bs) els ctx =
         if truthy (ev c ctx) then rn b ctx else rnF bs els ctx)
  ∧ (∀ l : List Value, truthy (Value.arr l) = false ↔ l = [])
  ∧ (∀ (e : Expr) (es : List Expr) (r : Value) (ctx : Ctx),
       evAnd (e :: es) r ctx =
         (if truthy (ev e ctx) then evAnd es (ev e ctx) ctx else ev e ctx))
  ∧ (∀ (e : Expr) (es : List Expr) (r : Value) (ctx : Ctx),
       evOr (e :: es) r ctx =
         (if truthy (ev e ctx) then ev e ctx else evOr es (ev e ctx) ctx)) := by
  refine ⟨?_, ?_, ?_, ?_, ?_⟩
  · intro v
    match v with
    | Value.null => simp [truthy]
    | Value.undef => simp [truthy]
    | Value.bool b => cases b <;> simp [truthy]
    | Value.num JSNum.nan => simp [truthy]
    | Value.num (JSNum.q x) => simp [truthy]
    | Value.str s => simp [truthy]
    | Value.arr l => simp [truthy, List.isEmpty_iff]
    | Value.obj m => simp [truthy, List.isEmpty_iff]
  · intro c b bs els ctx
    simp [rnF]
  · intro l
    simp [truthy, List.isEmpty_iff]
  · intro e es r ctx
    simp [evAnd]
  · intro e es r ctx
    simp [evOr]

/-- C6: a Pipe evaluates exactly like the Call with its left-hand
expression prepended to the arguments — including when the function name
is absent from the registry (both forms then produce the same
unknown-function error Value). -/
theorem c6_pipe_is_prepended_call (left : Expr) (fn : String) (args : List Expr)
    (ctx : Ctx) :
    ev (Expr.P left fn args) ctx = ev (Expr.C fn (left :: args)) ctx := by
  simp [ev]

/-- C4: `and` evaluates left to right and returns the first falsy result
— independently of every later argument expression, which is the
extensional content of "never evaluates e2" — and the last result when
all are truthy; `or` dually returns the first truthy result or the last
result when all are falsy. -/
theorem c4_logical_short_circuit :
    (∀ (ctx : Ctx) (xs : List Expr) (e : Expr) (ys : List Expr),
      (∀ x ∈ xs, truthy (ev x ctx) = true) → truthy (ev e ctx) = false →
      evalFn "and" (xs ++ e :: ys) ctx = ev e ctx)
  ∧ (∀ (ctx : Ctx) (xs : List Expr) (e : Expr),
      (∀ x ∈ xs, truthy (ev x ctx) = true) → truthy (ev e ctx) = true →
      evalFn "and" (xs ++ [e]) ctx = ev e ctx)
  ∧ (∀ (ctx : Ctx) (xs : List Expr) (e : Expr) (ys : List Expr),
      (∀ x ∈ xs, truthy (ev x ctx) = false) → truthy (ev e ctx) = true →
      evalFn "or" (xs ++ e :: ys) ctx = ev e ctx)
  ∧ (∀ (ctx : Ctx) (xs : List Expr) (e : Expr),
      (∀ x ∈ xs, truthy (ev x ctx) = false) → truthy (ev e ctx) = false →
      evalFn "or" (xs ++ [e]) ctx = ev e ctx) := by
  refine ⟨?_, ?_, ?_, ?_⟩
  · intro ctx xs e ys hall hf
    rw [evalFn_and]
    obtain ⟨r2, hr⟩ := evAnd_skip_truthy ctx xs (e :: ys) (Value.bool true) hall
    rw [hr]
    simp [evAnd, hf]
  · intro ctx xs e hall ht
    rw [evalFn_and]
    obtain ⟨r2, hr⟩ := evAnd_skip_truthy ctx xs [e] (Value.bool true) hall
    rw [hr]
    simp [evAnd, ht]
  · intro ctx xs e ys hall ht
    rw [evalFn_or]
    obtain ⟨r2, hr⟩ := evOr_skip_falsy ctx xs (e :: ys) (Value.bool false) hall
    rw [hr]
    simp [evOr, ht]
  · intro ctx xs e hall hf
    rw [evalFn_or]
    obtain ⟨r2, hr⟩ := evOr_skip_falsy ctx xs [e] (Value.bool false) hall
    rw [hr]
    simp [evOr, hf]

/-- Witness for C4 at a concrete input: `and(false, boom())` returns the
falsy first operand untouched by the (unknown) second argument, and
`or("x", boom())` returns the truthy first operand. -/
theorem c4_witness :
    evalFn "and" [Expr.L (Value.bool false), Expr.C "boom" []] [] = Value.bool false
  ∧ evalFn "or" [Expr.L (Value.str "x"), Expr.C "boom" []] [] = Value.str "x" := by
  constructor
  · have h := c4_logical_short_circuit.1 [] [] (Expr.L (Value.bool false))
      [Expr.C "boom" []] (by intro x hx; cases hx) (by simp [ev, truthy])
    simpa [ev] using h
  · have h := c4_logical_short_circuit.2.2.1 [] [] (Expr.L (Value.str "x"))
      [Expr.C "boom" []] (by intro x hx; cases hx) (by simp [ev, truthy])
    simpa [ev] using h

/-- C1: Variable resolution walks the path left to right and, as soon as
the current value is null/absent or the next segment is not an own key of
the current value, the whole resolution is `undefined` (never an error
string).  On non-mapping values the prototype-chain names `constructor`,
`__proto__` and `hasOwnProperty` are never own keys, and on a mapping
only genuinely present keys pass the own-key test. -/
theorem c1_own_keys_only :
    (∀ (ctx : Ctx) (pre : List String) (k : String) (post : List String),
      (resolvePath pre (Value.obj ctx) = Value.null ∨
       resolvePath pre (Value.obj ctx) = Value.undef ∨
       hasOwn (resolvePath pre (Value.obj ctx)) k = false) →
      ev (Expr.V (pre ++ k :: post)) ctx = Value.undef)
  ∧ (∀ k : String, k = "constructor" ∨ k = "__proto__" ∨ k = "hasOwnProperty" →
      (∀ s : String, hasOwn (Value.str s) k = false)
    ∧ (∀ n : JSNum, hasOwn (Value.num n) k = false)
    ∧ (∀ b : Bool, hasOwn (Value.bool b) k = false)
    ∧ (∀ l : List Value, hasOwn (Value.arr l) k = false)
    ∧ (∀ m : Ctx, hasKey m k = false → hasOwn (Value.obj m) k = false)) := by
  constructor
  · intro ctx pre k post hfail
    have hev : ev (Expr.V (pre ++ k :: post)) ctx
        = resolvePath (pre ++ k :: post) (Value.obj ctx) := by simp [ev]
    rw [hev, resolvePath_append pre (k :: post) (Value.obj ctx)]
    rcases hfail with h | h | h
    · rw [h]; rfl
    · rw [h]; rfl
    · match hv : resolvePath pre (Value.obj ctx) with
      | Value.null => rfl
      | Value.undef => rfl
      | Value.str s =>
        rw [hv] at h
        simp only [resolvePath, h, Bool.false_eq_true, if_false]
      | Value.num n =>
        rw [hv] at h
        simp only [resolvePath, h, Bool.false_eq_true, if_false]
      | Value.bool b =>
        rw [hv] at h
        simp only [resolvePath, h, Bool.false_eq_true, if_false]
      | Value.arr l =>
        rw [hv] at h
        simp only [resolvePath, h, Bool.false_eq_true, if_false]
      | Value.obj m =>
        rw [hv] at h
        simp only [resolvePath, h, Bool.false_eq_true, if_false]
  · intro k hk
    rcases hk with rfl | rfl | rfl
    · exact ⟨fun _ => rfl, fun _ => rfl, fun _ => rfl, fun _ => rfl, fun _ h => h⟩
    · exact ⟨fun _ => rfl, fun _ => rfl, fun _ => rfl, fun _ => rfl, fun _ h => h⟩
    · exact ⟨fun _ => rfl, fun _ => rfl, fun _ => rfl, fun _ => rfl, fun _ h => h⟩

/-- Witness for C1 at a concrete input: from `{a: "x"}`, the path
`a.constructor` hits a non-own (inherited-only) key on the boxed string
and resolves to absent. -/
theorem c1_witness :
    hasOwn (resolvePath ["a"] (Value.obj [("a", Value.str "x")])) "constructor" = false
  ∧ ev (Expr.V ["a", "constructor"]) [("a", Value.str "x")] = Value.undef := by
  constructor
  · rfl
  · exact c1_own_keys_only.1 [("a", Value.str "x")] ["a"] "constructor" []
      (Or.inr (Or.inr rfl))

/-- C5: a Loop over a non-empty sequence renders each iteration against a
child context built from the enclosing one by adding or overwriting the
element binding (and the index binding when declared and non-empty),
while the loop recursion and every sibling node keep receiving the
enclosing context itself, unchanged: on every key other than the binding
names the child resolves exactly as the enclosing context, the binding
names resolve in the child to the current element and index, and nodes
after the loop render against the very context from before the loop. -/
theorem c5_loop_child_context :
    (∀ (arrE : Expr) (asN : String) (idxN : Option String) (body : List Node)
       (els : Option (List Node)) (ctx : Ctx) (v : Value) (vs : List Value),
       ev arrE ctx = Value.arr (v :: vs) →
       rnNode (Node.E arrE asN idxN body els) ctx =
         rn body (loopCtx ctx asN idxN v 0) ++ rnEach body asN idxN ctx vs 1)
  ∧ (∀ (ctx : Ctx) (asN : String) (idxN : Option String) (v : Value) (i : Nat)
       (k : String), k ≠ asN → (∀ ix, idxN = some ix → k ≠ ix) →
       lookupCtx (loopCtx ctx asN idxN v i) k = lookupCtx ctx k)
  ∧ (∀ (ctx : Ctx) (asN : String) (idxN : Option String) (v : Value) (i : Nat),
       (∀ ix, idxN = some ix → ix ≠ asN) →
       lookupCtx (loopCtx ctx asN idxN v i) asN = some v)
  ∧ (∀ (ctx : Ctx) (asN : String) (ix : String) (v : Value) (i : Nat),
       ix ≠ "" →
       lookupCtx (loopCtx ctx asN (some ix) v i) ix = some (Value.num (JSNum.q i)))
  ∧ (∀ (n : Node) (rest : List Node) (ctx : Ctx),
       rn (n :: rest) ctx = rnNode n ctx ++ rn rest ctx) := by
  refine ⟨?_, ?_, ?_, ?_, ?_⟩
  · intro arrE asN idxN body els ctx v vs h
    simp only [rnNode]
    rw [h]
    simp [rnEach]
  · intro ctx asN idxN v i k hk hix
    match idxN with
    | none => exact lookup_setKey_other ctx asN k v hk
    | some ix =>
      have hkix : k ≠ ix := hix ix rfl
      simp only [loopCtx]
      split
      · exact lookup_setKey_other ctx asN k v hk
      · rw [lookup_setKey_other _ ix k _ hkix]
        exact lookup_setKey_other ctx asN k v hk
  · intro ctx asN idxN v i hix
    match idxN with
    | none => exact lookup_setKey_self ctx asN v
    | some ix =>
      have hixa : ix ≠ asN := hix ix rfl
      simp only [loopCtx]
      split
      · exact lookup_setKey_self ctx asN v
      · rw [lookup_setKey_other _ ix asN _ (fun hh => hixa hh.symm)]
        exact lookup_setKey_self ctx asN v
  · intro ctx asN ix v i hne
    simp only [loopCtx]
    rw [if_neg hne]
    exact lookup_setKey_self _ ix _
  · intro n rest ctx
    simp [rn]

/-- Witness for C5 at a concrete input: looping `xs` (one element, `"a"`)
as `x` with index `i` over the context `{xs: ["a"], y: "z", x: "old"}`:
the Loop node renders as one iteration against the child context, in
which `y` still resolves to `"z"`, `x` resolves to the element and `i`
to the index 0. -/
theorem c5_witness :
    rnNode (Node.E (Expr.V ["xs"]) "x" (some "i") [Node.I (Expr.V ["x"]) false] none)
        [("xs", Value.arr [Value.str "a"]), ("y", Value.str "z"), ("x", Value.str "old")]
      = rn [Node.I (Expr.V ["x"]) false]
          (loopCtx [("xs", Value.arr [Value.str "a"]), ("y", Value.str "z"),
            ("x", Value.str "old")] "x" (some "i") (Value.str "a") 0)
        ++ rnEach [Node.I (Expr.V ["x"]) false] "x" (some "i")
            [("xs", Value.arr [Value.str "a"]), ("y", Value.str "z"),
              ("x", Value.str "old")] [] 1
  ∧ lookupCtx (loopCtx [("xs", Value.arr [Value.str "a"]), ("y", Value.str "z"),
        ("x", Value.str "old")] "x" (some "i") (Value.str "a") 0) "y"
      = lookupCtx [("xs", Value.arr [Value.str "a"]), ("y", Value.str "z"),
          ("x", Value.str "old")] "y"
  ∧ lookupCtx (loopCtx [("xs", Value.arr [Value.str "a"]), ("y", Value.str "z"),
        ("x", Value.str "old")] "x" (some "i") (Value.str "a") 0) "x"
      = some (Value.str "a")
  ∧ lookupCtx (loopCtx [("xs", Value.arr [Value.str "a"]), ("y", Value.str "z"),
        ("x", Value.str "old")] "x" (some "i") (Value.str "a") 0) "i"
      = some (Value.num (JSNum.q 0)) := by
  refine ⟨?_, ?_, ?_, ?_⟩
  · exact c5_loop_child_context.1 (Expr.V ["xs"]) "x" (some "i")
      [Node.I (Expr.V ["x"]) false] none _ (Value.str "a") [] (by simp [ev]; rfl)
  · exact c5_loop_child_context.2.1 _ "x" (some "i") (Value.str "a") 0 "y"
      (by decide) (by intro ix hix; injection hix with h2; rw [h2.symm]; decide)
  · exact c5_loop_child_context.2.2.1 _ "x" (some "i") (Value.str "a") 0
      (by intro ix hix; injection hix with h2; rw [h2.symm]; decide)
  · exact c5_loop_child_context.2.2.2.1 _ "x" "i" (Value.str "a") 0 (by decide)

/-- C7: the parser terminates on every finite input.  In the embedding
the source's recursions are driven by fuel, so termination is the fact
that the fixed fuel budget suffices: the safety rule makes a nonempty
expression parse always consume at least one character, the node parser
at fuel `3·length + 3` always returns a result (never runs out of fuel)
on any input and with any active stop set, and therefore `parse` never
falls back for lack of fuel. -/
theorem c7_parse_terminates :
    (∀ (c : Char) (cs : List Char), ((parseExpr (c :: cs)).2).length < (c :: cs).length)
  ∧ (∀ s : String, (parseNodesF (3 * s.data.length + 3) [] s.data).isSome = true)
  ∧ (∀ (stops : List (List Char)) (l : List Char) (f : Nat), 3 * l.length + 3 ≤ f →
      (parseNodesF f stops l).isSome = true) :=
  ⟨fun c cs => parseExpr_lt c cs,
   fun s => (nodeFuelSuff s.data.length s.data (le_refl _)).1 [] _ (le_refl _),
   fun stops l f hf => (nodeFuelSuff l.length l (le_refl _)).1 stops f hf⟩

/-- Witness for C7 at a concrete input: the node parser with surplus fuel
on a ten-character input returns a result. -/
theorem c7_witness : (parseNodesF 40 [] "0123456789".data).isSome = true :=
  c7_parse_terminates.2.2 [] "0123456789".data 40 (by decide)

set_option maxHeartbeats 2000000 in
/-- C2 (amended): the under-supply arity check holds for the fifteen
registry entries that call `ck` — eq/ne/gt/lt/gte/lte with 2, not with 1,
truncate with 2, replace with 3, limit with 2, first/last/length with 1,
join with 2, default with 2 — and the resulting error Value depends only
on the name and the count, not on the argument expressions.  The claim's
remaining five catalogue entries have no check: with zero arguments
`and`/`or` return their neutral Values and `lowercase`/`uppercase`/`trim`
stringify the absent operand to `"undefined"` instead of erroring. -/
theorem c2_arity_checks :
    (∀ (name : String) (n : Nat),
      (name, n) ∈ ([("eq", 2), ("ne", 2), ("gt", 2), ("lt", 2), ("gte", 2),
        ("lte", 2), ("not", 1), ("truncate", 2), ("replace", 3), ("limit", 2),
        ("first", 1), ("last", 1), ("length", 1), ("join", 2), ("default", 2)] :
          List (String × Nat)) →
      ∀ (args : List Expr) (ctx : Ctx), args.length < n →
      evalFn name args ctx =
        Value.str ("[Error: " ++ name ++ "() needs " ++ toString n ++ " args]"))
  ∧ (∀ ctx : Ctx, evalFn "and" [] ctx = Value.bool true)
  ∧ (∀ ctx : Ctx, evalFn "or" [] ctx = Value.bool false)
  ∧ (∀ ctx : Ctx, evalFn "lowercase" [] ctx = Value.str "undefined")
  ∧ (∀ ctx : Ctx, evalFn "uppercase" [] ctx = Value.str "UNDEFINED")
  ∧ (∀ ctx : Ctx, evalFn "trim" [] ctx = Value.str "undefined") := by
  refine ⟨?_, ?_, ?_, ?_, ?_, ?_⟩
  · intro name n hmem args ctx hlen
    have hvl : (evList args ctx).length < n := by
      rw [evList_length]
      exact hlen
    fin_cases hmem
    all_goals rw [evalFn]
    all_goals simp only [String.reduceEq, reduceIte]
    all_goals unfold applyFn
    all_goals simp only [String.reduceEq, reduceIte]
    all_goals rw [ckV_lt _ _ _ hvl]
  · intro ctx
    rw [evalFn_and]
    simp [evAnd]
  · intro ctx
    rw [evalFn_or]
    simp [evOr]
  · intro ctx
    rw [evalFn]
    simp only [String.reduceEq, reduceIte, evList]
    unfold applyFn
    simp only [String.reduceEq, reduceIte]
    simp only [jsToString]
    exact congrArg Value.str (by decide)
  · intro ctx
    rw [evalFn]
    simp only [String.reduceEq, reduceIte, evList]
    unfold applyFn
    simp only [String.reduceEq, reduceIte]
    simp only [jsToString]
    exact congrArg Value.str (by decide)
  · intro ctx
    rw [evalFn]
    simp only [String.reduceEq, reduceIte, evList]
    unfold applyFn
    simp only [String.reduceEq, reduceIte]
    simp only [jsToString]
    exact congrArg Value.str (by decide)

/-- Witness for C2 at a concrete input: `ne` with zero arguments is
under-supplied and yields its arity-error Value. -/
theorem c2_witness :
    evalFn "ne" ([] : List Expr) [] =
      Value.str ("[Error: " ++ "ne" ++ "() needs " ++ toString 2 ++ " args]")
  ∧ ([] : List Expr).length < 2 :=
  ⟨c2_arity_checks.1 "ne" 2 (by decide) [] [] (by decide), by decide⟩

/-- C2 counterexample: `lowercase()` (listed in the claim's catalogue
with minimum arity 1) does not return the prescribed arity-error Value —
the source registry has no `ck` call on it, so the absent operand is
stringified and lowercased to `"undefined"`; likewise `and()` returns
the neutral `true` rather than an error. -/
theorem c2_counterexample :
    evalFn "lowercase" [] [] = Value.str "undefined"
  ∧ Value.str "undefined" ≠ Value.str "[Error: lowercase() needs 1 args]"
  ∧ evalFn "and" [] [] = Value.bool true := by
  refine ⟨?_, ?_, ?_⟩
  · rw [evalFn]
    simp only [String.reduceEq, reduceIte, evList]
    unfold applyFn
    simp only [String.reduceEq, reduceIte]
    simp only [jsToString]
    exact congrArg Value.str (by decide)
  · rw [ne_eq, Value.str.injEq]
    decide
  · rw [evalFn_and]
    simp [evAnd]

/-- C10: on a context binding `s` to a (non-empty) string value, the
boxed string's own properties resolve through the path walk: `s.length`
evaluates to the character count (and `{{ s.length }}` renders its
decimal numeral), and `s.0` evaluates to the one-character string holding
the first character (and `{{ s.0 }}` renders it, provided that character
is not one of the five HTML-escaped ones). -/
theorem c10_string_boxed_props (str : String) (ctx : Ctx)
    (hctx : lookupCtx ctx "s" = some (Value.str str))
    (hne : str.data ≠ [])
    (hesc : ∀ c ∈ str.data.take 1, escChar1 c = String.mk [c]) :
    ev (Expr.V ["s", "length"]) ctx = Value.num (JSNum.q str.length)
  ∧ render "\x7b\x7b s.length \x7d\x7d" ctx = Nat.repr str.length
  ∧ ev (Expr.V ["s", "0"]) ctx = Value.str (String.mk (str.data.take 1))
  ∧ render "\x7b\x7b s.0 \x7d\x7d" ctx = String.mk (str.data.take 1) := by
  have hh : hasOwn (Value.obj ctx) "s" = true := by
    show (lookupCtx ctx "s").isSome = true
    rw [hctx]
    rfl
  have hg : getProp (Value.obj ctx) "s" = Value.str str := by
    show (lookupCtx ctx "s").getD Value.undef = Value.str str
    rw [hctx]
    rfl
  have hpos : 0 < str.length := List.length_pos.mpr hne
  have hnd : natDecimal "0" = some 0 := rfl
  have hh0 : hasOwn (Value.str str) "0" = true := by
    simp [hasOwn, hnd, hpos]
  have hcr : ∃ c rest, str.data = c :: rest := List.exists_cons_of_ne_nil hne
  obtain ⟨c, rest, hcr⟩ := hcr
  have hg0 : getProp (Value.str str) "0" = Value.str (String.mk (str.data.take 1)) := by
    show (if ("0" : String) = "length" then Value.num (JSNum.q str.length)
      else match natDecimal "0" with
      | some i =>
        match str.data.get? i with
        | some c => Value.str (String.mk [c])
        | none => Value.undef
      | none => Value.undef) = Value.str (String.mk (str.data.take 1))
    rw [if_neg (by decide), hnd, hcr]
    rfl
  have hevlen : ev (Expr.V ["s", "length"]) ctx = Value.num (JSNum.q str.length) := by
    have e0 : ev (Expr.V ["s", "length"]) ctx
        = resolvePath ["s", "length"] (Value.obj ctx) := by simp [ev]
    have e1 : resolvePath ["s", "length"] (Value.obj ctx)
        = if hasOwn (Value.obj ctx) "s"
          then resolvePath ["length"] (getProp (Value.obj ctx) "s")
          else Value.undef := rfl
    rw [e0, e1, hh]
    simp only [reduceIte]
    rw [hg]
    rfl
  have hev0 : ev (Expr.V ["s", "0"]) ctx = Value.str (String.mk (str.data.take 1)) := by
    have e0 : ev (Expr.V ["s", "0"]) ctx
        = resolvePath ["s", "0"] (Value.obj ctx) := by simp [ev]
    have e1 : resolvePath ["s", "0"] (Value.obj ctx)
        = if hasOwn (Value.obj ctx) "s"
          then resolvePath ["0"] (getProp (Value.obj ctx) "s")
          else Value.undef := rfl
    have e2 : resolvePath ["0"] (Value.str str)
        = if hasOwn (Value.str str) "0"
          then resolvePath [] (getProp (Value.str str) "0")
          else Value.undef := rfl
    rw [e0, e1, hh]
    simp only [reduceIte]
    rw [hg, e2, hh0]
    simp only [reduceIte]
    rw [hg0]
    rfl
  have hnum : numToString (JSNum.q str.length) = Nat.repr str.length := by
    simp only [numToString, Rat.den_natCast, reduceIte, Rat.num_natCast]
    rfl
  have hp1 : parse "\x7b\x7b s.length \x7d\x7d" = [Node.I (Expr.V ["s", "length"]) false] := by
    rfl
  have hp2 : parse "\x7b\x7b s.0 \x7d\x7d" = [Node.I (Expr.V ["s", "0"]) false] := by
    rfl
  refine ⟨hevlen, ?_, hev0, ?_⟩
  · unfold render
    rw [hp1]
    simp only [rn, rnNode]
    rw [hevlen]
    simp only [jsToString]
    rw [hnum, esc_natRepr]
    exact String.append_empty _
  · unfold render
    rw [hp2]
    simp only [rn, rnNode]
    rw [hev0]
    simp only [jsToString]
    rw [esc_eq_self (String.mk (str.data.take 1)) hesc]
    exact String.append_empty _

/-- A word character differs from any non-word character. -/
theorem wordChar_ne (c x : Char) (hc : isWordChar c = true)
    (hx : isWordChar x = false) : c ≠ x := by
  intro h
  rw [h, hx] at hc
  exact Bool.false_ne_true hc

/-- Word characters are not whitespace. -/
theorem wordChar_not_ws (c : Char) (hc : isWordChar c = true) :
    isWsChar c = false := by
  have h1 : c ≠ ' ' := wordChar_ne c ' ' hc (by decide)
  have h2 : c ≠ '\t' := wordChar_ne c '\t' hc (by decide)
  have h3 : c ≠ '\n' := wordChar_ne c '\n' hc (by decide)
  have h4 : c ≠ '\r' := wordChar_ne c '\r' hc (by decide)
  simp [isWsChar, h1, h2, h3, h4]

/-- `skipWs` stops at a non-whitespace character. -/
theorem skipWs_cons_nws (c : Char) (l : List Char) (h : isWsChar c = false) :
    skipWs (c :: l) = c :: l := by
  unfold skipWs
  rw [h]
  simp

/-- The identifier scan reads a full word and stops at the first
non-word character (or the end of input). -/
theorem identAux_append : ∀ (w : List Char) (acc : String) (r : List Char),
    w.all isWordChar = true → (∀ c ∈ r.head?, isWordChar c = false) →
    identAux acc (w ++ r) = (String.mk (acc.data ++ w), r)
| [], acc, r => by
  intro _ hr
  simp only [List.nil_append, List.append_nil]
  match r, hr with
  | [], _ =>
    show identAux acc [] = (String.mk acc.data, [])
    cases acc
    rfl
  | c :: cs, hr =>
    have hc : isWordChar c = false := hr c rfl
    show identAux acc (c :: cs) = (String.mk acc.data, c :: cs)
    unfold identAux
    rw [hc]
    cases acc
    simp
| a :: w, acc, r => by
  intro hall hr
  simp only [List.all_cons, Bool.and_eq_true] at hall
  simp only [List.cons_append, identAux, hall.1, if_true, List.append_eq]
  rw [identAux_append w (acc.push a) r hall.2 hr]
  show (String.mk ((acc.data ++ [a]) ++ w), r) = _
  rw [List.append_assoc]
  rfl

/-- `ident` on a word followed by a non-word character reads exactly the
word. -/
theorem ident_append (w : List Char) (r : List Char)
    (hall : w.all isWordChar = true)
    (hr : ∀ c ∈ r.head?, isWordChar c = false) :
    ident (w ++ r) = (String.mk w, r) := by
  unfold ident
  rw [identAux_append w "" r hall hr]
  rfl

/-- `}}` at the top level of the node parser is plain text. -/
theorem parseNodes_rbrb (f : Nat) :
    parseNodesF (f + 1 + 1) [] ['\x7d', '\x7d'] = some ([Node.T "\x7d\x7d"], []) := by
  show parseNodesF (f + 1 + 1) [] ('\x7d' :: ['\x7d']) = _
  simp only [parseNodesF]
  rfl

/-- A pipe scan at a character other than `|` returns immediately. -/
theorem parsePipesF_nopipe (f : Nat) (e : Expr) (c : Char) (R : List Char)
    (h : c ≠ '|') : parsePipesF (f + 1) e (c :: R) = some (e, c :: R) := by
  rw [parsePipesF]
  dsimp only
  rw [if_neg h]

set_option maxHeartbeats 2000000 in
/-- The expression parse of the Variable `xs` followed by a space and a
word character: the space is consumed, the word is left in place. -/
theorem parseExpr_xs (c : Char) (R : List Char) (hc : isWordChar c = true) :
    parseExpr ('x' :: 's' :: ' ' :: c :: R) = (Expr.V ["xs"], c :: R) := by
  have hnws : isWsChar c = false := wordChar_not_ws c hc
  have hdot : c ≠ '.' := wordChar_ne c '.' hc (by decide)
  have hpipe : c ≠ '|' := wordChar_ne c '|' hc (by decide)
  have hparen : c ≠ '(' := wordChar_ne c '(' hc (by decide)
  have hbase : parseBaseF (4 * ('x' :: 's' :: ' ' :: c :: R).length + 2 + 1)
      ('x' :: 's' :: ' ' :: c :: R) = some (Expr.V ["xs"], c :: R) := by
    simp only [parseBaseF]
    rw [if_neg (by decide), if_neg (by decide)]
    rw [show (4 * ('x' :: 's' :: ' ' :: c :: R).length + 2 : Nat)
      = (4 * ('x' :: 's' :: ' ' :: c :: R).length + 1) + 1 from by omega]
    simp only [identOrCallF]
    rw [show ident ('x' :: 's' :: ' ' :: c :: R) = ("xs", ' ' :: c :: R) from rfl]
    simp only [String.reduceEq, reduceIte]
    rw [show skipWs (' ' :: c :: R) = skipWs (c :: R) from rfl,
      skipWs_cons_nws c R hnws]
    split
    next heq =>
      injection heq with h1 h2
      exact absurd h1 hparen
    next =>
      unfold scanPath
      simp only [scanPathF]
      rw [if_neg hdot]
  unfold parseExpr
  rw [show (4 * ('x' :: 's' :: ' ' :: c :: R).length + 4 : Nat)
    = (4 * ('x' :: 's' :: ' ' :: c :: R).length + 2 + 1) + 1 from by omega]
  simp only [parseExprF]
  rw [show skipWs ('x' :: 's' :: ' ' :: c :: R) = 'x' :: 's' :: ' ' :: c :: R from rfl]
  rw [hbase]
  simp only [skipWs_cons_nws c R hnws]
  rw [show (4 * ('x' :: 's' :: ' ' :: c :: R).length + 2 + 1 : Nat)
    = (4 * ('x' :: 's' :: ' ' :: c :: R).length + 2) + 1 from by omega]
  rw [parsePipesF_nopipe _ _ c R hpipe]
  dsimp only
  rw [if_neg (by simp only [List.length_cons]; omega)]
  rfl

/-- An unclosed string scan consumes the whole input and yields `""`. -/
theorem scanStr_unclosed : ∀ (q : Char) (acc : String) (l : List Char),
    q ∉ l → scanStr q acc l = ("", [])
| _, _, [] => fun _ => rfl
| q, acc, c :: cs => fun h => by
  have hc : ¬ (c = q) := fun hh => h (hh ▸ List.mem_cons_self c cs)
  have hcs : q ∉ cs := fun hh => h (List.mem_cons_of_mem c hh)
  unfold scanStr
  rw [if_neg hc]
  by_cases hb : c = '\\'
  · rw [if_pos hb]
    match cs, hcs with
    | [], _ => rfl
    | d :: ds, hcs =>
      exact scanStr_unclosed q (acc.push (escMap d)) ds
        (fun hh => hcs (List.mem_cons_of_mem d hh))
  · rw [if_neg hb]
    exact scanStr_unclosed q (acc.push c) cs hcs

/-- The base parse of an unclosed string literal: empty-string Literal,
input exhausted. -/
theorem parseBaseF_unterminated (f : Nat) (q : Char) (cs : List Char)
    (hq : q = '\x22' ∨ q = '\x27') (h : q ∉ cs) :
    parseBaseF (f + 1) (q :: cs) = some (Expr.L (Value.str ""), []) := by
  rcases hq with rfl | rfl <;>
  · simp only [parseBaseF]
    rw [scanStr_unclosed _ "" cs h]
    rfl

/-- The expression parse of an unclosed string literal. -/
theorem parseExprF_unterminated (f : Nat) (q : Char) (cs : List Char)
    (hq : q = '\x22' ∨ q = '\x27') (h : q ∉ cs) :
    parseExprF (f + 1 + 1) (q :: cs) = some (Expr.L (Value.str ""), []) := by
  have hskip : skipWs (q :: cs) = q :: cs := by
    rcases hq with rfl | rfl <;> rfl
  simp only [parseExprF, hskip]
  rw [parseBaseF_unterminated f q cs hq h]
  simp only [parsePipesF, skipWs]
  rw [if_neg (by simp)]

/-- The total expression parser on an unclosed string literal. -/
theorem parseExpr_unterminated (q : Char) (cs : List Char)
    (hq : q = '\x22' ∨ q = '\x27') (h : q ∉ cs) :
    parseExpr (q :: cs) = (Expr.L (Value.str ""), []) := by
  unfold parseExpr
  rw [show 4 * (q :: cs).length + 4 = (4 * (q :: cs).length + 2) + 1 + 1 from by omega]
  rw [parseExprF_unterminated _ q cs hq h]
  rfl

/-- C8 (amended): a string literal with no closing quote before end of
input parses as the empty-string Literal, but the scan consumes the rest
of the input — nothing after the opening quote is parsed again or
rendered.  Concretely, in the template with an unclosed `"a` the
trailing text `b` produces no Text node and the render is empty. -/
theorem c8_unterminated_string :
    (∀ (q : Char) (acc : String) (l : List Char), q ∉ l →
       scanStr q acc l = ("", []))
  ∧ (∀ (q : Char) (cs : List Char), (q = '\x22' ∨ q = '\x27') → q ∉ cs →
       parseExpr (q :: cs) = (Expr.L (Value.str ""), []))
  ∧ parse "\x7b\x7b \x22a \x7d\x7db" = [Node.I (Expr.L (Value.str "")) false]
  ∧ render "\x7b\x7b \x22a \x7d\x7db" [] = "" := by
  refine ⟨scanStr_unclosed, parseExpr_unterminated, rfl, ?_⟩
  have hp : parse "\x7b\x7b \x22a \x7d\x7db" = [Node.I (Expr.L (Value.str "")) false] := rfl
  unfold render
  rw [hp]
  simp only [rn, rnNode]
  simp [ev, jsToString, esc]
  rfl

/-- Witness for C8 at a concrete input: scanning from an unclosed
double quote swallows `ab` and yields the empty string, and the
expression parser turns it into the empty-string Literal with nothing
left to parse. -/
theorem c8_witness :
    scanStr '\x22' "" "ab".data = ("", [])
  ∧ parseExpr ('\x22' :: "ab".data) = (Expr.L (Value.str ""), []) :=
  ⟨c8_unterminated_string.1 '\x22' "" "ab".data (by decide),
   c8_unterminated_string.2.1 '\x22' "ab".data (Or.inl rfl) (by decide)⟩

/-- C8 counterexample: for the template holding an unclosed `"a` followed
by the text `b`, the node parser consumes the entire input into a single
empty-Literal node — the trailing `b` yields no node and the render is
empty, not the claimed re-parsed and re-rendered following text. -/
theorem c8_counterexample :
    parseNodesF (3 * ("\x7b\x7b \x22a \x7d\x7db".data.length) + 3) []
        "\x7b\x7b \x22a \x7d\x7db".data
      = some ([Node.I (Expr.L (Value.str "")) false], [])
  ∧ render "\x7b\x7b \x22a \x7d\x7db" [] = ""
  ∧ ("" : String) ≠ "b" := by
  refine ⟨rfl, ?_, by decide⟩
  have hp : parse "\x7b\x7b \x22a \x7d\x7db" = [Node.I (Expr.L (Value.str "")) false] := rfl
  unfold render
  rw [hp]
  simp only [rn, rnNode]
  simp [ev, jsToString, esc]
  rfl

set_option maxHeartbeats 2000000 in
/-- C9 (amended): when the keyword after the `#each` source expression is
a word other than `as`, the parser emits the inline error Text node and
resumes right after the keyword, WITHOUT consuming the rest of the tag:
the tag's closing `\x7d\x7d` is parsed as ordinary text and appears in
the rendered output after the error message. -/
theorem c9_each_missing_as (kw : String)
    (hall : kw.data.all isWordChar = true) (hne : kw.data ≠ [])
    (hkw : kw ≠ "as") :
    parse ("\x7b\x7b#each xs " ++ kw ++ "\x7d\x7d")
      = [Node.T "[Error: #each missing 'as']", Node.T "\x7d\x7d"]
  ∧ ∀ ctx : Ctx, render ("\x7b\x7b#each xs " ++ kw ++ "\x7d\x7d") ctx
      = "[Error: #each missing 'as']" ++ "\x7d\x7d" := by
  obtain ⟨c, kd, hcd⟩ := List.exists_cons_of_ne_nil hne
  have hcw : isWordChar c = true := by
    rw [hcd] at hall
    simp only [List.all_cons, Bool.and_eq_true] at hall
    exact hall.1
  have hnws : isWsChar c = false := wordChar_not_ws c hcw
  have hmk : String.mk kw.data = kw := by cases kw; rfl
  have hdata : ("\x7b\x7b#each xs " ++ kw ++ "\x7d\x7d").data
      = '\x7b' :: '\x7b' :: '#' :: 'e' :: 'a' :: 'c' :: 'h' :: ' ' :: 'x' :: 's'
        :: ' ' :: (kw.data ++ ['\x7d', '\x7d']) := by
    rw [show ("\x7b\x7b#each xs " ++ kw ++ "\x7d\x7d") = String.mk
      (("\x7b\x7b#each xs ").data ++ kw.data ++ ("\x7d\x7d").data) from by
        cases kw; rfl]
    rfl
  have hlen : ("\x7b\x7b#each xs " ++ kw ++ "\x7d\x7d").data.length
      = kw.data.length + 13 := by
    rw [hdata]
    simp only [List.length_cons, List.length_append, List.length_cons,
      List.length_nil]
  have hT2 : kw.data ++ ['\x7d', '\x7d'] = c :: (kd ++ ['\x7d', '\x7d']) := by
    rw [hcd]
    rfl
  have hpe : parseExpr ('x' :: 's' :: ' ' :: (kw.data ++ ['\x7d', '\x7d']))
      = (Expr.V ["xs"], kw.data ++ ['\x7d', '\x7d']) := by
    rw [hT2]
    exact parseExpr_xs c (kd ++ ['\x7d', '\x7d']) hcw
  have hpas : ident (kw.data ++ ['\x7d', '\x7d']) = (kw, ['\x7d', '\x7d']) := by
    rw [ident_append kw.data ['\x7d', '\x7d'] hall
      (by intro x hx; simp at hx; subst hx; rfl)]
  have hskipT : skipWs (kw.data ++ ['\x7d', '\x7d']) = kw.data ++ ['\x7d', '\x7d'] := by
    rw [hT2]
    exact skipWs_cons_nws c _ hnws
  have hnodes : parseNodesF
      (3 * ("\x7b\x7b#each xs " ++ kw ++ "\x7d\x7d").data.length + 3) []
      (("\x7b\x7b#each xs " ++ kw ++ "\x7d\x7d").data)
      = some ([Node.T "[Error: #each missing 'as']", Node.T "\x7d\x7d"], []) := by
    rw [hlen, hdata]
    rw [show (3 * (kw.data.length + 13) + 3 : Nat)
      = (3 * kw.data.length + 41) + 1 from by omega]
    rw [parseNodesF]
    simp only [List.any_nil]
    rw [show (escSeq.isPrefixOf ('\x7b' :: '\x7b' :: '#' :: 'e' :: 'a' :: 'c'
      :: 'h' :: ' ' :: 'x' :: 's' :: ' '
      :: (kw.data ++ ['\x7d', '\x7d']))) = false from rfl]
    rw [show (lblb.isPrefixOf ('\x7b' :: '\x7b' :: '#' :: 'e' :: 'a' :: 'c'
      :: 'h' :: ' ' :: 'x' :: 's' :: ' '
      :: (kw.data ++ ['\x7d', '\x7d']))) = true from rfl]
    rw [if_neg (show ¬(false = true) from by decide)]
    rw [if_neg (show ¬(false = true) from by decide)]
    rw [if_pos (show (true = true) from rfl)]
    rw [show (('\x7b' :: '\x7b' :: '#' :: 'e' :: 'a' :: 'c' :: 'h' :: ' ' :: 'x'
      :: 's' :: ' ' :: (kw.data ++ ['\x7d', '\x7d'])).drop 2)
      = '#' :: 'e' :: 'a' :: 'c' :: 'h' :: ' ' :: 'x' :: 's' :: ' '
        :: (kw.data ++ ['\x7d', '\x7d']) from rfl]
    rw [show skipWs ('#' :: 'e' :: 'a' :: 'c' :: 'h' :: ' ' :: 'x' :: 's' :: ' '
      :: (kw.data ++ ['\x7d', '\x7d']))
      = '#' :: 'e' :: 'a' :: 'c' :: 'h' :: ' ' :: 'x' :: 's' :: ' '
        :: (kw.data ++ ['\x7d', '\x7d']) from rfl]
    split
    next t heq =>
      injection heq with h1 h2
      exact absurd h1 (by decide)
    next t heq =>
      injection heq with h1 h2
      subst h2
      rw [show ident ('e' :: 'a' :: 'c' :: 'h' :: ' ' :: 'x' :: 's' :: ' '
        :: (kw.data ++ ['\x7d', '\x7d']))
        = ("each", ' ' :: 'x' :: 's' :: ' ' :: (kw.data ++ ['\x7d', '\x7d'])) from rfl]
      try dsimp only
      rw [show skipWs (' ' :: 'x' :: 's' :: ' ' :: (kw.data ++ ['\x7d', '\x7d']))
        = 'x' :: 's' :: ' ' :: (kw.data ++ ['\x7d', '\x7d']) from rfl]
      simp only [String.reduceEq, reduceIte]
      rw [hpe]
      try dsimp only
      rw [hskipT, hpas]
      try dsimp only
      rw [show skipWs ['\x7d', '\x7d'] = ['\x7d', '\x7d'] from rfl]
      rw [if_pos hkw]
      rw [show (3 * kw.data.length + 41 : Nat)
        = (3 * kw.data.length + 39) + 1 + 1 from by omega]
      rw [parseNodes_rbrb]
    next h1 h2 =>
      exact absurd rfl (h2 _)
    exact fun h => List.noConfusion h
  constructor
  · unfold parse
    rw [hnodes]
    rfl
  · intro ctx
    unfold render parse
    rw [hnodes]
    show rn [Node.T "[Error: #each missing 'as']", Node.T "\x7d\x7d"] ctx = _
    simp only [rn, rnNode]
    rw [String.append_empty]

/-- Witness for C9 at a concrete input: the keyword `x` in place of `as`
produces the error Text node followed by the still-present `\x7d\x7d`
text, and the render shows both. -/
theorem c9_witness :
    parse "\x7b\x7b#each xs x\x7d\x7d"
      = [Node.T "[Error: #each missing 'as']", Node.T "\x7d\x7d"]
  ∧ render "\x7b\x7b#each xs x\x7d\x7d" []
      = "[Error: #each missing 'as']" ++ "\x7d\x7d" :=
  ⟨(c9_each_missing_as "x" (by decide) (by decide) (by decide)).1,
   (c9_each_missing_as "x" (by decide) (by decide) (by decide)).2 []⟩

/-- C9 counterexample: for the template `\x7b\x7b#each xs x\x7d\x7d`
(keyword `x` instead of `as`), the node parser emits the error Text node
and then a second Text node holding the tag's closing `\x7d\x7d` — the
malformed tag's remainder is NOT consumed, and the rendered output is
the error message with `\x7d\x7d` appended, not the bare error message
the claim predicts. -/
theorem c9_counterexample :
    parseNodesF (3 * ("\x7b\x7b#each xs x\x7d\x7d".data.length) + 3) []
        "\x7b\x7b#each xs x\x7d\x7d".data
      = some ([Node.T "[Error: #each missing 'as']", Node.T "\x7d\x7d"], [])
  ∧ render "\x7b\x7b#each xs x\x7d\x7d" [] = "[Error: #each missing 'as']\x7d\x7d"
  ∧ ("[Error: #each missing 'as']\x7d\x7d" : String) ≠ "[Error: #each missing 'as']" := by
  refine ⟨rfl, ?_, by decide⟩
  have hp : parse "\x7b\x7b#each xs x\x7d\x7d"
      = [Node.T "[Error: #each missing 'as']", Node.T "\x7d\x7d"] := rfl
  unfold render
  rw [hp]
  simp only [rn, rnNode]
  rw [String.append_empty]
  rfl

/-- Witness for C10 at a concrete input: with `s` bound to `"Hello"`,
`{{ s.length }}` renders `"5"` and `{{ s.0 }}` renders `"H"`. -/
theorem c10_witness :
    render "\x7b\x7b s.length \x7d\x7d" [("s", Value.str "Hello")] = Nat.repr ("Hello").length
  ∧ render "\x7b\x7b s.0 \x7d\x7d" [("s", Value.str "Hello")] = String.mk (("Hello").data.take 1)
  ∧ Nat.repr ("Hello").length = "5"
  ∧ String.mk (("Hello").data.take 1) = "H" :=
  ⟨(c10_string_boxed_props "Hello" [("s", Value.str "Hello")] rfl (by decide)
      (by decide)).2.1,
   (c10_string_boxed_props "Hello" [("s", Value.str "Hello")] rfl (by decide)
      (by decide)).2.2.2,
   rfl, rfl⟩

end ALT
